import Mathlib

/-!
# Verification of the HDAWG translation-and-caching core (qupulse `zihdawg.py`)

Shallow embedding of `HDAWGWaveManager` (waveform/marker cache with range
validation and content-hash deduplication) and `HDAWGProgramManager`
(program-tree to seqc translation, program registry with index assignment,
and sequencer-document assembly), together with theorems settling the
specification claims.

Modelling conventions:
* Physical sample values are rationals (`ℚ`); the Python code uses float64.
* The external sampler (`get_sample_times` + `Waveform.get_sampled`) is
  excluded by the spec; a `Waveform` is modelled as its sample count plus the
  pre-sampled data per logical channel at the implied time axis.
* The filesystem is a finite association list from file paths to file data;
  `np.savetxt` becomes an insert-or-replace on that list.
* Python dicts keyed by hash become association lists (`List (Int × String)`);
  a plain assignment with a key that is absent appends, matching dict
  insertion-order semantics.
* Python exceptions become `Except`; an error value is paired with the wave
  manager state at the moment the exception is raised, so that partial
  mutation (or its absence) on an error path is observable.
* Multi-line text (seqc fragments, the sequencer document) is represented as
  its list of lines; `'\n'.join` becomes list concatenation and
  `textwrap.indent` becomes a per-line map.  This assumes program names and
  artifact names contain no newline, which holds for all generated names.
-/

/-- Decidable equality for `Except`, so that concrete runs of the embedded
operations can be checked by `decide`. -/
instance {ε α : Type _} [DecidableEq ε] [DecidableEq α] :
    DecidableEq (Except ε α) := fun x y =>
  match x, y with
  | .error a, .error b =>
      if h : a = b then isTrue (congrArg Except.error h)
      else isFalse (fun hh => h (Except.error.inj hh))
  | .error _, .ok _ => isFalse (fun hh => Except.noConfusion hh)
  | .ok _, .error _ => isFalse (fun hh => Except.noConfusion hh)
  | .ok a, .ok b =>
      if h : a = b then isTrue (congrArg Except.ok h)
      else isFalse (fun hh => h (Except.ok.inj hh))

/-- Errors of the HDAWG core.  `valueError` models `HDAWGValueError` raised by
`volt_to_amp` (carrying the reported maximum deviation and the range);
`ioError` models `HDAWGIOError` raised by `to_file` on an existing path. -/
inductive HDAWGError where
  | valueError (max_volt : ℚ) (rng : ℚ)
  | ioError (path : String)
deriving DecidableEq, Repr

/-- Content of one persisted artifact: the sample matrix (row-major, as written
by `np.savetxt`) and the number format (`"%f"` for waves, `"%d"` for markers). -/
structure FileData where
  rows : List (List ℚ)
  fmt : String
deriving DecidableEq, Repr

/-- A logical waveform, modelled as the external sampler sees it: the number of
samples implied by `(sample_rate, duration)` and, for each logical channel
identifier, the physical sample values at the implied time axis
(`waveform.get_sampled(chan, sample_times)`). -/
structure Waveform where
  n_samples : Nat
  get_sampled : String → List ℚ

/-- Mutable state of `HDAWGWaveManager`: the two hash→name caches
(`_wave_by_data`, `_marker_by_data`) and the persisted files in the wave
directory. -/
structure WaveManagerState where
  wave_by_data : List (Int × String)
  marker_by_data : List (Int × String)
  files : List (String × FileData)
deriving DecidableEq, Repr

namespace HDAWGWaveManager

/-- `full_file_path`: absolute file path of a waveform on disk
(`self._wave_dir.joinpath(name + '.' + self._file_type)` with file type
`csv`; the constant directory part is dropped from the model). -/
def full_file_path (name : String) : String :=
  name ++ ".csv"

/-- Whether a persisted artifact exists at `path` (`Path.is_file`/`exists`). -/
def fileExists (path : String) (files : List (String × FileData)) : Bool :=
  (files.lookup path).isSome

/-- Insert-or-replace on the modelled filesystem (`np.savetxt` overwrites). -/
def fileSet (path : String) (data : FileData) :
    List (String × FileData) → List (String × FileData)
  | [] => [(path, data)]
  | (p, d) :: rest =>
      if p = path then (p, data) :: rest else (p, d) :: fileSet path data rest

/-- `to_file`: save sampled data to disk.  Raises `HDAWGIOError` if the file
exists and `overwrite` is not set; otherwise writes the matrix. -/
def to_file (name : String) (wave_data : List (List ℚ)) (fmt : String)
    (overwrite : Bool) (files : List (String × FileData)) :
    Except HDAWGError (List (String × FileData)) :=
  let file_path := full_file_path name
  if fileExists file_path files ∧ ¬ overwrite then
    .error (.ioError file_path)
  else
    .ok (fileSet file_path ⟨wave_data, fmt⟩ files)

/-- Encoding of an integer as a natural number, used by the hash model. -/
def encInt (n : Int) : Nat :=
  if 0 ≤ n then 2 * n.toNat else 2 * (-n).toNat + 1

/-- Encoding of a rational as a natural number, used by the hash model. -/
def encRat (q : ℚ) : Nat :=
  Nat.pair (encInt q.num) q.den

/-- `calc_hash`: models `hash(bytes(data))` — a deterministic digest of the
exact byte content of the sample matrix.  Python's hash of a `bytes` object is
opaque but deterministic within a process; it is modelled by a concrete
deterministic accumulator over the matrix entries. -/
def calc_hash (data : List (List ℚ)) : Int :=
  Int.ofNat (data.foldl
    (fun h row => row.foldl (fun h q => h * 1000003 + encRat q) (h * 1000003 + 1))
    1)

/-- `generate_wave_name`: `self._awg_prefix + '_' + str(abs(data_hash))`. -/
def generate_wave_name (awgId : String) (data_hash : Int) : String :=
  awgId ++ "_" ++ toString data_hash.natAbs

/-- `generate_marker_name`: `self._awg_prefix + '_M_' + str(abs(data_hash))`. -/
def generate_marker_name (awgId : String) (data_hash : Int) : String :=
  awgId ++ "_M_" ++ toString data_hash.natAbs

/-- `np.abs` on a rational, written so that it evaluates by kernel reduction;
`ratAbs_eq_abs` identifies it with Mathlib's `|·|`. -/
def ratAbs (q : ℚ) : ℚ :=
  if q < 0 then -q else q

/-- Binary maximum on rationals, written so that it evaluates by kernel
reduction; `ratMax_eq_max` identifies it with Mathlib's `max`. -/
def ratMax (a b : ℚ) : ℚ :=
  if a ≤ b then b else a

/-- `np.max(np.abs(volt - offset))` over the channel's samples (the guard in
`volt_to_amp` ensures the list is non-empty when this is reported). -/
def maxAbsDev (volt : List ℚ) (offset : ℚ) : ℚ :=
  (volt.map (fun v => ratAbs (v - offset))).foldr ratMax 0

/-- `volt_to_amp`: scale voltage pulse data to dimensionless -1..1 amplitude of
full range; if out of range raise `HDAWGValueError` reporting
`np.max(np.abs(volt - offset))`. -/
def volt_to_amp (volt : List ℚ) (rng : ℚ) (offset : ℚ) :
    Except HDAWGError (List ℚ) :=
  if volt.any (fun v => decide (rng < ratAbs (v - offset))) then
    .error (.valueError (maxAbsDev volt offset) rng)
  else
    .ok (volt.map (fun v => (v - offset) / rng))

/-- One amplitude column per channel slot (`amplitude[:, idx]`): an empty slot
keeps its `np.zeros` column; an assigned slot is sampled
(`waveform.get_sampled`), transformed by `voltage_transformation[idx]`
(elementwise) and normalized by
`volt_to_amp(..., output_range[idx], output_offset[idx])`.  An error
propagates from the first offending slot, as in the Python loop. -/
def build_amplitude (w : Waveform) (vts : List (ℚ → ℚ))
    (output_range output_offset : List ℚ) :
    Nat → List (Option String) → Except HDAWGError (List (List ℚ))
  | _, [] => .ok []
  | idx, none :: rest =>
      match build_amplitude w vts output_range output_offset (idx + 1) rest with
      | .error e => .error e
      | .ok cols => .ok (List.replicate w.n_samples 0 :: cols)
  | idx, some chan :: rest =>
      let voltage := (w.get_sampled chan).map (vts.getD idx id)
      match volt_to_amp voltage (output_range.getD idx 0)
          (output_offset.getD idx 0) with
      | .error e => .error e
      | .ok col =>
          match build_amplitude w vts output_range output_offset (idx + 1) rest with
          | .error e => .error e
          | .ok cols => .ok (col :: cols)

/-- Row-major view of the `(n_samples, number_of_channels)` numpy matrix built
from the per-slot columns: row `t`, column `idx` holds `cols[idx][t]`. -/
def matrix_rows (cols : List (List ℚ)) (n : Nat) : List (List ℚ) :=
  (List.range n).map (fun t => cols.map (fun col => col.getD t 0))

/-- One marker column per channel slot (`marker_output[:, idx]`): an empty
slot keeps its zero column; an assigned slot samples the waveform and converts
each sample to 0/1 (`waveform.get_sampled(marker, sample_times) != 0`). -/
def build_marker_cols (w : Waveform) : List (Option String) → List (List ℚ)
  | [] => []
  | none :: rest => List.replicate w.n_samples 0 :: build_marker_cols w rest
  | some mk :: rest =>
      (w.get_sampled mk).map (fun v => if v = 0 then 0 else 1)
        :: build_marker_cols w rest

/-- Wave block of `register`: hash the amplitude matrix, reuse the cached name
on a hit or mint a new one and record the mapping, then write the file unless
it already exists (`overwrite` forces the write). -/
def register_wave_block (awgId : String) (st : WaveManagerState)
    (amplitude : List (List ℚ)) (overwrite : Bool) :
    Except (HDAWGError × WaveManagerState) (WaveManagerState × String) :=
  let amplitude_hash := calc_hash amplitude
  let wave_dict :=
    match st.wave_by_data.lookup amplitude_hash with
    | some nm => (nm, st.wave_by_data)
    | none =>
        let nm := generate_wave_name awgId amplitude_hash
        (nm, st.wave_by_data ++ [(amplitude_hash, nm)])
  let wave_name := wave_dict.1
  let st1 : WaveManagerState := { st with wave_by_data := wave_dict.2 }
  if overwrite ∨ ¬ fileExists (full_file_path wave_name) st1.files then
    match to_file wave_name amplitude "%f" overwrite st1.files with
    | .error e => .error (e, st1)
    | .ok files => .ok ({ st1 with files := files }, wave_name)
  else
    .ok (st1, wave_name)

/-- Marker block of `register`: same hash/dedup discipline as the wave block,
in the marker namespace, with integer format. -/
def register_marker_block (awgId : String) (st : WaveManagerState)
    (marker_output : List (List ℚ)) (overwrite : Bool) :
    Except (HDAWGError × WaveManagerState) (WaveManagerState × String) :=
  let marker_hash := calc_hash marker_output
  let marker_dict :=
    match st.marker_by_data.lookup marker_hash with
    | some nm => (nm, st.marker_by_data)
    | none =>
        let nm := generate_marker_name awgId marker_hash
        (nm, st.marker_by_data ++ [(marker_hash, nm)])
  let marker_name := marker_dict.1
  let st1 : WaveManagerState := { st with marker_by_data := marker_dict.2 }
  if overwrite ∨ ¬ fileExists (full_file_path marker_name) st1.files then
    match to_file marker_name marker_output "%d" overwrite st1.files with
    | .error e => .error (e, st1)
    | .ok files => .ok ({ st1 with files := files }, marker_name)
  else
    .ok (st1, marker_name)

/-- `register`: write the sampled waveforms of all channel slots into a single
file and all marker slots into a second file, after normalization, with
content-hash deduplication.  Returns the wave and marker file names (`none`
for a side with no assigned channel).  The `sample_rate` argument of the
source only feeds the external sampler (`get_sample_times`) and is absorbed
into `Waveform`.  An error value carries the wave-manager state at the moment
the exception is raised. -/
def register (awgId : String) (st : WaveManagerState) (waveform : Waveform)
    (channels markers : List (Option String))
    (voltage_transformation : List (ℚ → ℚ))
    (output_range output_offset : List ℚ) (overwrite : Bool) :
    Except (HDAWGError × WaveManagerState)
      (WaveManagerState × Option String × Option String) :=
  let waveRes : Except (HDAWGError × WaveManagerState)
      (WaveManagerState × Option String) :=
    if channels.any Option.isSome then
      match build_amplitude waveform voltage_transformation output_range
          output_offset 0 channels with
      | .error e => .error (e, st)
      | .ok cols =>
          match register_wave_block awgId st
              (matrix_rows cols waveform.n_samples) overwrite with
          | .error e => .error e
          | .ok (st1, nm) => .ok (st1, some nm)
    else .ok (st, none)
  match waveRes with
  | .error e => .error e
  | .ok (st1, wave_name) =>
      let markerRes : Except (HDAWGError × WaveManagerState)
          (WaveManagerState × Option String) :=
        if markers.any Option.isSome then
          match register_marker_block awgId st1
              (matrix_rows (build_marker_cols waveform markers)
                waveform.n_samples) overwrite with
          | .error e => .error e
          | .ok (st2, nm) => .ok (st2, some nm)
        else .ok (st1, none)
      match markerRes with
      | .error e => .error e
      | .ok (st2, marker_name) => .ok (st2, wave_name, marker_name)

/-- Loop body of `register_single_channels`: iterate over the channel slots
with 0-based `idx`; skip slots with neither channel nor marker assigned;
otherwise delegate to `register` with singleton channel, marker and
transformation tuples.  Note that the full `output_range` and `output_offset`
tuples are passed through unchanged, exactly as in the source, so the inner
`register` call indexes them at position 0 for every slot. -/
def register_single_channels_go (awgId : String) (waveform : Waveform)
    (markers : List (Option String)) (vts : List (ℚ → ℚ))
    (output_range output_offset : List ℚ) (overwrite : Bool) :
    Nat → WaveManagerState → List (Option String) →
    Except (HDAWGError × WaveManagerState)
      (WaveManagerState ×
        List (Option String × Option String × Nat × Option String))
  | _, st, [] => .ok (st, [])
  | idx, st, channel :: rest =>
      let marker := markers.getD idx none
      if channel = none ∧ marker = none then
        register_single_channels_go awgId waveform markers vts output_range
          output_offset overwrite (idx + 1) st rest
      else
        match register awgId st waveform [channel] [marker] [vts.getD idx id]
            output_range output_offset overwrite with
        | .error e => .error e
        | .ok (st1, wave_name, marker_name) =>
            match register_single_channels_go awgId waveform markers vts
                output_range output_offset overwrite (idx + 1) st1 rest with
            | .error e => .error e
            | .ok (st2, tail) =>
                .ok (st2, (wave_name, marker_name, idx + 1, channel) :: tail)

/-- `register_single_channels`: one `register` call per channel slot that has
a wave or marker assignment (slots with neither are omitted); returns the list
of `(wave_name, marker_name, hardware_channel_index, channel_name)` tuples
with 1-based hardware channel index, in slot order. -/
def register_single_channels (awgId : String) (st : WaveManagerState)
    (waveform : Waveform) (channels markers : List (Option String))
    (vts : List (ℚ → ℚ)) (output_range output_offset : List ℚ)
    (overwrite : Bool) :
    Except (HDAWGError × WaveManagerState)
      (WaveManagerState ×
        List (Option String × Option String × Nat × Option String)) :=
  register_single_channels_go awgId waveform markers vts output_range
    output_offset overwrite 0 st channels

/-- Invariant of the wave cache: every cached name was minted by
`generate_wave_name`.  It holds for the initial state (the caches start
empty, cleared in `__init__`/`clear`) and is preserved by every `register`
call, since the only insertion into `_wave_by_data` stores the freshly
generated name. -/
def wave_cache_ok (awgId : String) (st : WaveManagerState) : Prop :=
  ∀ p ∈ st.wave_by_data, ∃ hsh, p.2 = generate_wave_name awgId hsh

/-- Invariant of the marker cache: every cached name was minted by
`generate_marker_name` — the `_M_` namespace.  Like `wave_cache_ok` it holds
initially and is preserved by every `register` call. -/
def marker_cache_ok (awgId : String) (st : WaveManagerState) : Prop :=
  ∀ p ∈ st.marker_by_data, ∃ hsh, p.2 = generate_marker_name awgId hsh

end HDAWGWaveManager

/-- A qupulse `Loop` program node: a leaf holds a sampled waveform, an
internal node holds its ordered children; both carry a repetition count
(`repetition_count ≥ 1` in qupulse; the embedding allows any `Nat` and the
code only tests `> 1`). -/
inductive Loop where
  | leaf (waveform : Waveform) (repetition_count : Nat)
  | node (children : List Loop) (repetition_count : Nat)

/-- `prog.repetition_count`. -/
def Loop.repetition_count : Loop → Nat
  | .leaf _ r => r
  | .node _ r => r

/-- The ambient configuration fields of `HDAWGProgramManager`
(`self._channels`, `self._markers`, `self._voltage_transformation`,
`self._overwrite`, `self._output_range`, `self._output_offset`), overwritten
by every `register` call and read by `waveform_to_seqc`.  The
`self._sample_rate` field only feeds the external sampler and is absorbed
into `Waveform`. -/
structure AmbientConfig where
  channels : List (Option String)
  markers : List (Option String)
  voltage_transformation : List (ℚ → ℚ)
  overwrite : Bool
  output_range : List ℚ
  output_offset : List ℚ

/-- Entry of known programs (`HDAWGProgramManager.ProgramEntry`): the program
tree, its switch-case index, and its seqc representation.  The seqc text
(joined with newlines in the source) is kept as its list of lines. -/
structure HDProgramEntry where
  program : Loop
  index : Nat
  seqc_rep : List String

namespace HDAWGProgramManager

/-- `OrderedDict` assignment `d[name] = e`: updating an existing key keeps its
position, a new key is appended. -/
def odInsert (name : String) (e : HDProgramEntry)
    (known : List (String × HDProgramEntry)) : List (String × HDProgramEntry) :=
  if known.any (fun p => p.1 = name) then
    known.map (fun p => if p.1 = name then (name, e) else p)
  else
    known ++ [(name, e)]

/-- `OrderedDict.pop(name)`: remove the entry for `name`; `none` models the
`KeyError` raised when the key is absent. -/
def odPop (name : String) :
    List (String × HDProgramEntry) → Option (List (String × HDProgramEntry))
  | [] => none
  | p :: rest =>
      if p.1 = name then some rest else (odPop name rest).map (p :: ·)

/-- `generate_program_index`: if programs are known, one more than the index
of the positionally last entry (`next(reversed(self._known_programs))`);
otherwise `1` — index `0` is reserved for the idle pulse. -/
def generate_program_index (known : List (String × HDProgramEntry)) : Nat :=
  match known.getLast? with
  | some last_program => last_program.2.index + 1
  | none => 1

/-- The dictionary update performed by a successful
`HDAWGProgramManager.register` call:
`self._known_programs[name] = ProgramEntry(program, generate_program_index(), seqc)`. -/
def register_entry (known : List (String × HDProgramEntry)) (name : String)
    (program : Loop) (seqc_rep : List String) : List (String × HDProgramEntry) :=
  odInsert name ⟨program, generate_program_index known, seqc_rep⟩ known

/-- Per-channel operand of the play instruction built by `waveform_to_seqc`:
wave and marker present → `add("wave", "marker")`; exactly one present → that
reference quoted; neither → `continue` (no contribution).  The operand is
prefixed by the 1-based hardware channel index. -/
def entry_operand :
    Option String × Option String × Nat × Option String → Option String
  | (wf_name, mk_name, channel_idx, _) =>
    match mk_name, wf_name with
    | some m, some w =>
        some (toString channel_idx ++ "," ++ "add(\"" ++ w ++ "\", \"" ++ m ++ "\")")
    | some m, none => some (toString channel_idx ++ "," ++ "\"" ++ m ++ "\"")
    | none, some w => some (toString channel_idx ++ "," ++ "\"" ++ w ++ "\"")
    | none, none => none

/-- `waveform_to_seqc`: register the waveform's channels through
`register_single_channels`, combine each returned tuple into an operand, and
join the operands into one `playWave(...)` command; an empty operand list
yields the empty instruction. -/
def waveform_to_seqc (awgId : String) (cfg : AmbientConfig)
    (st : WaveManagerState) (waveform : Waveform) :
    Except (HDAWGError × WaveManagerState) (WaveManagerState × String) :=
  match HDAWGWaveManager.register_single_channels awgId st waveform
      cfg.channels cfg.markers cfg.voltage_transformation
      cfg.output_range cfg.output_offset cfg.overwrite with
  | .error e => .error e
  | .ok (st1, registered_names) =>
      let www := registered_names.filterMap entry_operand
      if www.isEmpty then
        .ok (st1, "")
      else
        .ok (st1, "playWave(" ++ String.intercalate ", " www ++ ");")

mutual

/-- `program_to_seqc`: translate a program node to seqc lines.  If
`repetition_count > 1` the body lines (each passed through the two-space
indentation template) are wrapped in `repeat(n) { ... }`; otherwise the body
is emitted bare. -/
def program_to_seqc (awgId : String) (cfg : AmbientConfig)
    (st : WaveManagerState) (prog : Loop) :
    Except (HDAWGError × WaveManagerState) (WaveManagerState × List String) :=
  let rep := prog.repetition_count
  match program_to_seqc_inner awgId cfg st prog
      (fun l => if 1 < rep then "  " ++ l else l) with
  | .error e => .error e
  | .ok (st1, body) =>
      if 1 < rep then
        .ok (st1, ("repeat(" ++ toString rep ++ ") \x7b") :: body ++ ["\x7d"])
      else
        .ok (st1, body)

/-- Body lines of a node, each formatted with the node's template: a leaf
yields its play instruction, an internal node the concatenation of its
children's translations. -/
def program_to_seqc_inner (awgId : String) (cfg : AmbientConfig)
    (st : WaveManagerState) (prog : Loop) (template : String → String) :
    Except (HDAWGError × WaveManagerState) (WaveManagerState × List String) :=
  match prog with
  | .leaf w _ =>
      match waveform_to_seqc awgId cfg st w with
      | .error e => .error e
      | .ok (st1, s) => .ok (st1, [template s])
  | .node children _ => children_to_seqc awgId cfg st children template

/-- Sequential translation of an internal node's children, threading the wave
manager state and formatting every emitted line with the parent's template. -/
def children_to_seqc (awgId : String) (cfg : AmbientConfig)
    (st : WaveManagerState) (children : List Loop) (template : String → String) :
    Except (HDAWGError × WaveManagerState) (WaveManagerState × List String) :=
  match children with
  | [] => .ok (st, [])
  | c :: cs =>
      match program_to_seqc awgId cfg st c with
      | .error e => .error e
      | .ok (st1, lines) =>
          match children_to_seqc awgId cfg st1 cs template with
          | .error e => .error e
          | .ok (st2, tail) => .ok (st2, lines.map template ++ tail)

end

/-- Python's `line.strip()` test used by `textwrap.indent`: a line consisting
solely of whitespace is left unprefixed. -/
def isBlank (l : String) : Bool :=
  l.data.all (fun c => c.isWhitespace)

/-- `textwrap.indent(text, pre)` at the line level: prefix every line that
does not consist solely of whitespace. -/
def textwrap_indent (lines : List String) (pre : String) : List String :=
  lines.map (fun l => if isBlank l then l else pre ++ l)

/-- `case_wrap_program`: wrap one program's seqc lines into a switch-case arm,
`case <index>: // Program name: <name>` followed by the body (terminated by an
`// end of <name>` comment) indented four more spaces, the whole arm indented
by `indent` (default 8) spaces. -/
def case_wrap_program (prog : HDProgramEntry) (prog_name : String)
    (indent : Nat := 8) : List String :=
  let indented_seqc :=
    textwrap_indent (prog.seqc_rep ++ ["// end of " ++ prog_name]) "    "
  let case_str :=
    ("case " ++ toString prog.index ++ ": // Program name: " ++ prog_name)
      :: indented_seqc
  textwrap_indent case_str (String.mk (List.replicate indent ' '))

/-- `assemble_case_block`: the case arms of all known programs, in the ordered
dict's insertion order (`'\n'.join` of the wrapped arms, at the line level). -/
def assemble_case_block (known : List (String × HDProgramEntry)) : List String :=
  (known.map (fun p => case_wrap_program p.2 p.1)).flatten

/-- Lines of `sequencer_template` before the `_case_block_` placeholder, with
`_upload_time_` substituted (the source fills in `time.strftime('%c')`) and
the two unused waveform-block placeholders replaced by the empty string (which
leaves an empty line where each placeholder line stood). -/
def sequencer_header (upload_time : String) : List String :=
  [ "//////////  qupulse sequence (" ++ upload_time ++ ") //////////",
    "",
    "const PROG_SEL = 0; // User register for switching current program.",
    "",
    "// Start of analog waveform definitions.",
    "wave idle = zeros(16); // Default idle waveform.",
    "",
    "",
    "// Start of marker waveform definitions.",
    "",
    "",
    "// Arm program switch.",
    "var prog_sel = getUserReg(PROG_SEL);",
    "",
    "// Main loop.",
    "while(true)\x7b",
    "    switch(prog_sel)\x7b" ]

/-- Lines of `sequencer_template` after the `_case_block_` placeholder: the
single `default` arm playing the reserved idle waveform, the closing braces,
and the template's trailing newline. -/
def sequencer_footer : List String :=
  [ "        default:",
    "            playWave(1, idle);",
    "    \x7d",
    "\x7d",
    "" ]

/-- `assemble_sequencer_program` at the line level: the fixed template with
the placeholders substituted.  The source performs textual
`str.replace` on `sequencer_template`; each placeholder occurs exactly once
and on a line of its own (except `_upload_time_`, inline in the banner line),
so the replacement splices the case block's lines in place of the
`_case_block_` line.  When the case block is the empty string the placeholder
line becomes an empty line. -/
def assemble_sequencer_program (known : List (String × HDProgramEntry))
    (upload_time : String) : List String :=
  let case_block := assemble_case_block known
  sequencer_header upload_time
    ++ (if case_block.isEmpty then [""] else case_block)
    ++ sequencer_footer

end HDAWGProgramManager

/-- Mutable state of `HDAWGProgramManager`: the ordered dict of known programs
and the ambient configuration fields overwritten on each `register` call. -/
structure ProgramManagerState where
  known_programs : List (String × HDProgramEntry)
  ambient : AmbientConfig

namespace HDAWGProgramManager

/-- `HDAWGProgramManager.register`: store the ambient configuration, translate
the program tree to seqc (which registers waveforms and may fail), allocate
the next program index and insert/overwrite the entry under `name`. -/
def registerProgram (awgId : String) (pm : ProgramManagerState)
    (wm : WaveManagerState) (name : String) (program : Loop)
    (channels markers : List (Option String))
    (voltage_transformation : List (ℚ → ℚ))
    (output_range output_offset : List ℚ) (overwrite : Bool) :
    Except (HDAWGError × WaveManagerState) (ProgramManagerState × WaveManagerState) :=
  let cfg : AmbientConfig :=
    ⟨channels, markers, voltage_transformation, overwrite,
      output_range, output_offset⟩
  match program_to_seqc awgId cfg wm program with
  | .error e => .error e
  | .ok (wm1, seqc_gen) =>
      .ok ({ known_programs := register_entry pm.known_programs name program seqc_gen,
             ambient := cfg }, wm1)

/-- `HDAWGProgramManager.remove`: `self._known_programs.pop(name)`; `none`
models the `KeyError` on an unknown name. -/
def removeProgram (pm : ProgramManagerState) (name : String) :
    Option ProgramManagerState :=
  (odPop name pm.known_programs).map
    (fun known => { pm with known_programs := known })

/-- `HDAWGProgramManager.clear`. -/
def clearPrograms (pm : ProgramManagerState) : ProgramManagerState :=
  { pm with known_programs := [] }

/-- `HDAWGProgramManager.programs`: the set of known program names (as the
key list of the ordered dict). -/
def programs (pm : ProgramManagerState) : List String :=
  pm.known_programs.map (fun p => p.1)

/-- `HDAWGProgramManager.name_to_index`; `none` models the `KeyError` on an
unknown name. -/
def name_to_index (pm : ProgramManagerState) (name : String) : Option Nat :=
  (pm.known_programs.lookup name).map (fun e => e.index)

end HDAWGProgramManager

namespace HDAWGProgramManager

/-- N successive fresh registrations starting from an empty registry: the
dictionary update of `HDAWGProgramManager.register` iterated over a list of
(name, program, seqc lines) triples. -/
def register_fresh_run (regs : List (String × Loop × List String)) :
    List (String × HDProgramEntry) :=
  regs.foldl (fun known r => register_entry known r.1 r.2.1 r.2.2) []

/-- Registry dictionary states reachable from construction by any sequence of
successful `register` (the `register_entry` update, with arbitrary name,
program and seqc text), `remove` (successful `pop`) and `clear` operations. -/
inductive ReachKnown : List (String × HDProgramEntry) → Prop
  | init : ReachKnown []
  | reg (known : List (String × HDProgramEntry)) (name : String)
      (program : Loop) (seqc : List String) :
      ReachKnown known → ReachKnown (register_entry known name program seqc)
  | rem (known known' : List (String × HDProgramEntry)) (name : String) :
      ReachKnown known → odPop name known = some known' → ReachKnown known'
  | clear (known : List (String × HDProgramEntry)) :
      ReachKnown known → ReachKnown []

/-- Registry dictionary states, paired with the list of all indices ever
assigned (ghost state), reachable when every registration uses a name that is
not currently registered and every removal removes an entry other than the
positionally last one. -/
inductive GoodReach :
    List (String × HDProgramEntry) → List Nat → Prop
  | init : GoodReach [] []
  | reg (known : List (String × HDProgramEntry)) (assigned : List Nat)
      (name : String) (program : Loop) (seqc : List String) :
      GoodReach known assigned →
      name ∉ known.map (fun p => p.1) →
      GoodReach (register_entry known name program seqc)
        (assigned ++ [generate_program_index known])
  | rem (known known' : List (String × HDProgramEntry)) (assigned : List Nat)
      (name : String) :
      GoodReach known assigned →
      (∀ q ∈ known.getLast?, q.1 ≠ name) →
      odPop name known = some known' →
      GoodReach known' assigned

/-- A line of the assembled sequencer document that introduces a dispatch arm:
a program's `case` label at switch level (eight spaces of indentation) or the
`default` label. -/
def isArmLabel (l : String) : Bool :=
  "        case ".data.isPrefixOf l.data || l == "        default:"

end HDAWGProgramManager

/-!
## Claim theorems
-/

namespace HDAWGWaveManager

theorem ratAbs_eq_abs (q : ℚ) : ratAbs q = |q| := by
  unfold ratAbs
  rcases lt_or_le q 0 with h | h
  · rw [if_pos h, abs_of_neg h]
  · rw [if_neg (not_lt.mpr h), abs_of_nonneg h]

theorem ratMax_eq_max (a b : ℚ) : ratMax a b = max a b := by
  unfold ratMax
  rcases le_total a b with h | h
  · rw [if_pos h, max_eq_right h]
  · rcases le_or_lt a b with h' | h'
    · rw [if_pos h', max_eq_right h']
    · rw [if_neg (not_le.mpr h'), max_eq_left h]

end HDAWGWaveManager

/-- **C10**: artifact name generation uses the absolute value of the content
hash: for every hash value `h`, `generate_wave_name h = generate_wave_name (-h)`
and `generate_marker_name h = generate_marker_name (-h)`, so two cache entries
whose hashes differ only in sign map to the same persisted file name. -/
theorem C10_artifact_name_uses_abs (awgId : String) (h : Int) :
    HDAWGWaveManager.generate_wave_name awgId h =
        HDAWGWaveManager.generate_wave_name awgId (-h) ∧
      HDAWGWaveManager.generate_marker_name awgId h =
        HDAWGWaveManager.generate_marker_name awgId (-h) := by
  unfold HDAWGWaveManager.generate_wave_name HDAWGWaveManager.generate_marker_name
  rw [Int.natAbs_neg]
  exact ⟨rfl, rfl⟩

namespace HDAWGProgramManager

/-- **C7**: `program_to_seqc` emits a repeat-block wrapper — an open line
parameterized by the count, the body lines each passed through the two-space
indentation template, and a matching close — exactly when
`repetition_count > 1`; when `repetition_count ≤ 1` (in particular `1`,
including for the tree root) the body lines are emitted bare, with the
identity template and no wrapper lines. -/
theorem C7_repeat_wrapper (awgId : String) (cfg : AmbientConfig)
    (st st1 : WaveManagerState) (prog : Loop) (body : List String)
    (hbody : program_to_seqc_inner awgId cfg st prog
        (fun l => if 1 < prog.repetition_count then "  " ++ l else l)
      = .ok (st1, body)) :
    program_to_seqc awgId cfg st prog =
      if 1 < prog.repetition_count then
        .ok (st1, ("repeat(" ++ toString prog.repetition_count ++ ") \x7b")
          :: body ++ ["\x7d"])
      else
        .ok (st1, body) := by
  rw [program_to_seqc, hbody]

/-- Witness for C7 at a concrete input: a leaf with repetition count 5 under
an empty channel configuration translates to the wrapped block
`repeat(5) { ... }`, and the same leaf with repetition count 1 to the bare
body, both by `C7_repeat_wrapper`. -/
theorem C7_repeat_wrapper_witness :
    program_to_seqc "awg" ⟨[], [], [], false, [], []⟩ ⟨[], [], []⟩
        (Loop.leaf ⟨0, fun _ => []⟩ 5)
      = .ok (⟨[], [], []⟩, ["repeat(5) \x7b", "  ", "\x7d"]) ∧
    program_to_seqc "awg" ⟨[], [], [], false, [], []⟩ ⟨[], [], []⟩
        (Loop.leaf ⟨0, fun _ => []⟩ 1)
      = .ok (⟨[], [], []⟩, [""]) := by
  constructor
  · have h := C7_repeat_wrapper "awg" ⟨[], [], [], false, [], []⟩ ⟨[], [], []⟩
      ⟨[], [], []⟩ (Loop.leaf ⟨0, fun _ => []⟩ 5) ["  "] (by
        simp [program_to_seqc_inner, waveform_to_seqc,
          HDAWGWaveManager.register_single_channels,
          HDAWGWaveManager.register_single_channels_go, Loop.repetition_count])
    rw [h]
    simp [Loop.repetition_count]
    all_goals decide
  · have h := C7_repeat_wrapper "awg" ⟨[], [], [], false, [], []⟩ ⟨[], [], []⟩
      ⟨[], [], []⟩ (Loop.leaf ⟨0, fun _ => []⟩ 1) [""] (by
        simp [program_to_seqc_inner, waveform_to_seqc,
          HDAWGWaveManager.register_single_channels,
          HDAWGWaveManager.register_single_channels_go, Loop.repetition_count])
    rw [h]
    simp [Loop.repetition_count]

/-- **C8**: a successful `waveform_to_seqc` call takes the per-channel tuples
returned by `register_single_channels` (one per contributing hardware channel,
in hardware-channel order), maps each through `entry_operand` — wave and
marker both present → an `add("wave", "marker")` expression, exactly one
present → that reference quoted, neither → no contribution — and joins the
contributions into one `playWave(...)` instruction; if no channel contributes
the leaf yields the empty instruction. -/
theorem C8_leaf_play_instruction (awgId : String) (cfg : AmbientConfig)
    (st st1 : WaveManagerState) (w : Waveform) (s : String)
    (h : waveform_to_seqc awgId cfg st w = .ok (st1, s)) :
    (∃ names, HDAWGWaveManager.register_single_channels awgId st w cfg.channels
        cfg.markers cfg.voltage_transformation cfg.output_range
        cfg.output_offset cfg.overwrite = .ok (st1, names) ∧
      s = (if (names.filterMap entry_operand).isEmpty then ""
           else "playWave("
             ++ String.intercalate ", " (names.filterMap entry_operand) ++ ");")) ∧
    (∀ wn mn i cn, entry_operand (some wn, some mn, i, cn)
        = some (toString i ++ "," ++ "add(\"" ++ wn ++ "\", \"" ++ mn ++ "\")")) ∧
    (∀ wn i cn, entry_operand (some wn, none, i, cn)
        = some (toString i ++ "," ++ "\"" ++ wn ++ "\"")) ∧
    (∀ mn i cn, entry_operand (none, some mn, i, cn)
        = some (toString i ++ "," ++ "\"" ++ mn ++ "\"")) ∧
    (∀ i cn, entry_operand ((none : Option String), (none : Option String), i, cn)
        = none) := by
  refine ⟨?_, fun _ _ _ _ => rfl, fun _ _ _ => rfl, fun _ _ _ => rfl,
    fun _ _ => rfl⟩
  unfold waveform_to_seqc at h
  rcases hr : HDAWGWaveManager.register_single_channels awgId st w cfg.channels
      cfg.markers cfg.voltage_transformation cfg.output_range
      cfg.output_offset cfg.overwrite with e | ⟨st1', names⟩
  · rw [hr] at h
    exact Except.noConfusion h
  · rw [hr] at h
    dsimp only at h
    by_cases hw : (names.filterMap entry_operand).isEmpty
    · rw [if_pos hw] at h
      obtain ⟨h1, h2⟩ := Prod.mk.injEq .. ▸ Except.ok.inj h
      subst h1
      exact ⟨names, rfl, by rw [if_pos hw]; exact h2.symm⟩
    · rw [if_neg hw] at h
      obtain ⟨h1, h2⟩ := Prod.mk.injEq .. ▸ Except.ok.inj h
      subst h1
      exact ⟨names, rfl, by rw [if_neg hw]; exact h2.symm⟩

/-- Witness for C8 at a concrete input: one channel slot carrying a wave and
no marker; the leaf's play instruction references the registered wave by
quoting it, by `C8_leaf_play_instruction`. -/
theorem C8_leaf_play_instruction_witness :
    (∃ names, HDAWGWaveManager.register_single_channels "awg" ⟨[], [], []⟩
        ⟨1, fun _ => [0]⟩ [some "a"] [none] [id] [1] [0] false
      = .ok (⟨[(HDAWGWaveManager.calc_hash [[0]],
            HDAWGWaveManager.generate_wave_name "awg" (HDAWGWaveManager.calc_hash [[0]]))],
          [],
          [(HDAWGWaveManager.full_file_path
              (HDAWGWaveManager.generate_wave_name "awg" (HDAWGWaveManager.calc_hash [[0]])),
            ⟨[[0]], "%f"⟩)]⟩, names) ∧
      ("playWave("
          ++ String.intercalate ", "
              [toString 1 ++ "," ++ "\""
                ++ HDAWGWaveManager.generate_wave_name "awg" (HDAWGWaveManager.calc_hash [[0]])
                ++ "\""]
          ++ ");")
        = (if (names.filterMap entry_operand).isEmpty then ""
           else "playWave("
             ++ String.intercalate ", " (names.filterMap entry_operand) ++ ");")) ∧
    (∀ wn mn i cn, entry_operand (some wn, some mn, i, cn)
        = some (toString i ++ "," ++ "add(\"" ++ wn ++ "\", \"" ++ mn ++ "\")")) ∧
    (∀ wn i cn, entry_operand (some wn, none, i, cn)
        = some (toString i ++ "," ++ "\"" ++ wn ++ "\"")) ∧
    (∀ mn i cn, entry_operand (none, some mn, i, cn)
        = some (toString i ++ "," ++ "\"" ++ mn ++ "\"")) ∧
    (∀ i cn, entry_operand ((none : Option String), (none : Option String), i, cn)
        = none) := by
  have hrsc :
      HDAWGWaveManager.register_single_channels "awg" ⟨[], [], []⟩ ⟨1, fun _ => [0]⟩
        [some "a"] [none] [id] [1] [0] false
      = .ok (⟨[(HDAWGWaveManager.calc_hash [[0]],
            HDAWGWaveManager.generate_wave_name "awg" (HDAWGWaveManager.calc_hash [[0]]))],
          [],
          [(HDAWGWaveManager.full_file_path
              (HDAWGWaveManager.generate_wave_name "awg" (HDAWGWaveManager.calc_hash [[0]])),
            ⟨[[0]], "%f"⟩)]⟩,
          [(some (HDAWGWaveManager.generate_wave_name "awg" (HDAWGWaveManager.calc_hash [[0]])),
            none, 1, some "a")]) := by
    rw [HDAWGWaveManager.register_single_channels,
      HDAWGWaveManager.register_single_channels_go]
    norm_num
    rw [HDAWGWaveManager.register]
    norm_num [HDAWGWaveManager.build_amplitude, HDAWGWaveManager.volt_to_amp,
      HDAWGWaveManager.ratAbs]
    rw [show HDAWGWaveManager.matrix_rows [[0]] 1 = [[0]] by
      norm_num [HDAWGWaveManager.matrix_rows, List.range, List.range.loop]]
    norm_num [HDAWGWaveManager.register_wave_block, HDAWGWaveManager.to_file,
      HDAWGWaveManager.fileExists, HDAWGWaveManager.fileSet]
    simp [HDAWGWaveManager.register_single_channels_go]
  exact C8_leaf_play_instruction "awg" ⟨[some "a"], [none], [id], false, [1], [0]⟩
    ⟨[], [], []⟩ _ ⟨1, fun _ => [0]⟩ _ (by
      unfold waveform_to_seqc
      rw [hrsc]
      simp [entry_operand])

theorem gpi_pos (known : List (String × HDProgramEntry)) :
    1 ≤ generate_program_index known := by
  unfold generate_program_index
  cases h : known.getLast? with
  | none => simp
  | some q => simp

theorem odInsert_mem {p : String × HDProgramEntry} (name : String)
    (e : HDProgramEntry) (known : List (String × HDProgramEntry))
    (h : p ∈ odInsert name e known) : p ∈ known ∨ p = (name, e) := by
  unfold odInsert at h
  split at h
  · rcases List.mem_map.mp h with ⟨q, hq, hqe⟩
    by_cases hk : q.1 = name
    · right; rw [if_pos hk] at hqe; exact hqe.symm
    · left; rw [if_neg hk] at hqe; exact hqe ▸ hq
  · rcases List.mem_append.mp h with hq | hq
    · exact Or.inl hq
    · right; simpa using hq

theorem odPop_subset (name : String) (known known' : List (String × HDProgramEntry))
    (h : odPop name known = some known') : ∀ p ∈ known', p ∈ known := by
  induction known generalizing known' with
  | nil => simp [odPop] at h
  | cons q rest ih =>
    unfold odPop at h
    split at h
    · obtain rfl := Option.some.inj h
      exact fun p hp => List.mem_cons_of_mem _ hp
    · cases hrec : odPop name rest with
      | none => rw [hrec] at h; simp at h
      | some rest' =>
        rw [hrec] at h
        simp only [Option.map_some'] at h
        obtain rfl := Option.some.inj h
        intro p hp
        rcases List.mem_cons.mp hp with rfl | hp'
        · exact List.mem_cons_self ..
        · exact List.mem_cons_of_mem _ (ih rest' hrec p hp')

theorem odInsert_fresh (name : String) (e : HDProgramEntry)
    (known : List (String × HDProgramEntry))
    (h : name ∉ known.map (fun p => p.1)) :
    odInsert name e known = known ++ [(name, e)] := by
  unfold odInsert
  rw [if_neg]
  simp only [List.any_eq_true, decide_eq_true_eq, not_exists, not_and]
  intro q hq he
  exact h (List.mem_map.mpr ⟨q, hq, he⟩)

theorem gpi_of_range (known : List (String × HDProgramEntry))
    (h : known.map (fun p => p.2.index) = List.range' 1 known.length) :
    generate_program_index known = known.length + 1 := by
  cases hl : known.getLast? with
  | none =>
    rw [List.getLast?_eq_none_iff.mp hl]
    simp [generate_program_index]
  | some q =>
    have hne : known ≠ [] := by
      intro he; rw [he] at hl; simp at hl
    obtain ⟨m, hm⟩ : ∃ m, known.length = m + 1 :=
      ⟨known.length - 1, by
        have := List.length_pos.mpr hne
        omega⟩
    have h1 : (known.map (fun p => p.2.index)).getLast? = some q.2.index := by
      rw [List.getLast?_map, hl]; rfl
    rw [h, hm, List.range'_concat, List.getLast?_concat] at h1
    have h2 := Option.some.inj h1
    simp only [generate_program_index, hl]
    omega

theorem register_fresh_aux (regs : List (String × Loop × List String)) :
    ∀ known : List (String × HDProgramEntry),
      (∀ r ∈ regs, r.1 ∉ known.map (fun p => p.1)) →
      (regs.map (fun r => r.1)).Nodup →
      known.map (fun p => p.2.index) = List.range' 1 known.length →
      (regs.foldl (fun kn r => register_entry kn r.1 r.2.1 r.2.2) known).map
            (fun p => p.1)
          = known.map (fun p => p.1) ++ regs.map (fun r => r.1) ∧
        (regs.foldl (fun kn r => register_entry kn r.1 r.2.1 r.2.2) known).map
            (fun p => p.2.index)
          = List.range' 1 (known.length + regs.length) := by
  induction regs with
  | nil =>
    intro known _ _ hidx
    simpa using hidx
  | cons r rs ih =>
    intro known hfresh hnodup hidx
    have hf : r.1 ∉ known.map (fun p => p.1) := hfresh r (List.mem_cons_self ..)
    have hgpi : generate_program_index known = known.length + 1 :=
      gpi_of_range known hidx
    have hstep : register_entry known r.1 r.2.1 r.2.2
        = known ++ [(r.1, ⟨r.2.1, generate_program_index known, r.2.2⟩)] := by
      unfold register_entry
      exact odInsert_fresh r.1 _ known hf
    have hkeys' : (known ++ [(r.1, (⟨r.2.1, generate_program_index known, r.2.2⟩ : HDProgramEntry))]).map (fun p => p.1)
        = known.map (fun p => p.1) ++ [r.1] := by simp
    have hidx' : (known ++ [(r.1, (⟨r.2.1, generate_program_index known, r.2.2⟩ : HDProgramEntry))]).map (fun p => p.2.index)
        = List.range' 1 (known ++ [(r.1, (⟨r.2.1, generate_program_index known, r.2.2⟩ : HDProgramEntry))]).length := by
      rw [List.map_append, hidx, List.length_append, List.length_singleton,
        List.range'_concat]
      simp [hgpi, Nat.add_comm]
    have hfresh' : ∀ r' ∈ rs,
        r'.1 ∉ (known ++ [(r.1, (⟨r.2.1, generate_program_index known, r.2.2⟩ : HDProgramEntry))]).map (fun p => p.1) := by
      intro r' hr'
      rw [hkeys']
      simp only [List.mem_append, List.mem_singleton, not_or]
      refine ⟨hfresh r' (List.mem_cons_of_mem _ hr'), ?_⟩
      intro he
      have hnin : r.1 ∉ rs.map (fun x => x.1) := (List.nodup_cons.mp hnodup).1
      exact hnin (he ▸ List.mem_map.mpr ⟨r', hr', rfl⟩)
    have hnodup' : (rs.map (fun x => x.1)).Nodup := (List.nodup_cons.mp hnodup).2
    have hres := ih _ hfresh' hnodup' hidx'
    simp only [List.foldl_cons, hstep]
    refine ⟨?_, ?_⟩
    · rw [hres.1, hkeys']
      simp
    · rw [hres.2]
      congr 1
      simp
      omega

/-- **C9**: after N successful fresh registrations of pairwise distinct names
from an empty registry, with no removals, the assigned indices are exactly
`1, ..., N` in registration order; and over every sequence of successful
register/remove/clear operations, every entry's index is at least 1 — index 0
is never assigned to a user program. -/
theorem C9_index_assignment :
    (∀ regs : List (String × Loop × List String),
        (regs.map (fun r => r.1)).Nodup →
        (register_fresh_run regs).map (fun p => p.1) = regs.map (fun r => r.1) ∧
        (register_fresh_run regs).map (fun p => p.2.index)
          = List.range' 1 regs.length) ∧
    (∀ known, ReachKnown known → ∀ p ∈ known, 1 ≤ p.2.index) := by
  constructor
  · intro regs hnodup
    have h := register_fresh_aux regs [] (by simp) hnodup (by simp)
    simpa [register_fresh_run] using h
  · intro known h
    induction h with
    | init => simp
    | reg known name prog seqc _ ih =>
      intro p hp
      rcases odInsert_mem name _ known hp with hk | he
      · exact ih p hk
      · rw [he]
        exact gpi_pos known
    | rem known known' name _ hpop ih =>
      exact fun p hp => ih p (odPop_subset name known known' hpop p hp)
    | clear known _ _ => simp

/-- Witness for C9: two fresh registrations "A", "B" from the empty registry
receive exactly the indices 1, 2, and every entry of a concrete reachable
one-element registry has index at least 1, by `C9_index_assignment`. -/
theorem C9_index_assignment_witness :
    ((register_fresh_run [("A", Loop.node [] 1, []), ("B", Loop.node [] 1, [])]).map
        (fun p => p.2.index) = List.range' 1 2) ∧
    (∀ p ∈ register_entry [] "A" (Loop.node [] 1) [], 1 ≤ p.2.index) := by
  constructor
  · exact (C9_index_assignment.1 [("A", Loop.node [] 1, []), ("B", Loop.node [] 1, [])]
      (by decide)).2
  · exact C9_index_assignment.2 _ (ReachKnown.reg [] "A" (Loop.node [] 1) [] ReachKnown.init)

/-- **C2 counterexample**: the claim "no index ever assigned to a removed (or
any earlier) entry is assigned again to a later registration" is false on the
code.  Concretely: register "A" (index 1) and "B" (index 2), remove "B", then
register "C" — `generate_program_index` reads the positionally last entry
("A", index 1) and assigns index 2, the index previously assigned to the
removed entry "B". -/
theorem C2_counterexample :
    (odPop "B" (register_entry (register_entry [] "A" (Loop.node [] 1) [])
        "B" (Loop.node [] 1) [])).map
        (fun k => k.map (fun p => (p.1, p.2.index)))
      = some [("A", 1)] ∧
    ((register_entry (register_entry [] "A" (Loop.node [] 1) []) "B"
        (Loop.node [] 1) []).lookup "B").map (fun e => e.index) = some 2 ∧
    ((register_entry [("A", (⟨Loop.node [] 1, 1, []⟩ : HDProgramEntry))] "C"
        (Loop.node [] 1) []).lookup "C").map (fun e => e.index) = some 2 := by
  refine ⟨?_, ?_, ?_⟩ <;> decide

/-- Removing an entry whose key is not the key of the positionally last entry
preserves the last entry of the registry. -/
theorem odPop_getLast? (name : String)
    (known known' : List (String × HDProgramEntry))
    (h : odPop name known = some known')
    (hlast : ∀ q ∈ known.getLast?, q.1 ≠ name) :
    known'.getLast? = known.getLast? := by
  induction known generalizing known' with
  | nil => simp [odPop] at h
  | cons q rest ih =>
    unfold odPop at h
    split at h
    · next heq =>
      obtain rfl := Option.some.inj h
      cases rest with
      | nil =>
        exact absurd heq (hlast q (by simp))
      | cons r rs =>
        rw [List.getLast?_cons_cons]
    · next hne =>
      cases hrec : odPop name rest with
      | none => rw [hrec] at h; simp at h
      | some rest' =>
        rw [hrec] at h
        simp only [Option.map_some'] at h
        obtain rfl := Option.some.inj h
        cases rest with
        | nil => simp [odPop] at hrec
        | cons r rs =>
          have hlast' : ∀ x ∈ (r :: rs).getLast?, x.1 ≠ name := by
            intro x hx
            exact hlast x (by rw [List.getLast?_cons_cons]; exact hx)
          have hrec' := ih rest' hrec hlast'
          have hne' : rest' ≠ [] := by
            intro he
            rw [he] at hrec'
            have h0 : (r :: rs).getLast? = none := hrec'.symm
            simp at h0
          cases rest' with
          | nil => exact absurd rfl hne'
          | cons t ts =>
            rw [List.getLast?_cons_cons, List.getLast?_cons_cons]
            exact hrec'

/-- **C2 amended**: provided every registration uses a name that is not
currently registered and every removal removes an entry other than the
positionally last one, every index ever assigned is strictly below the next
index `generate_program_index` would assign — so no index is ever reused
across the registry's lifetime.  (Removing the positionally last entry, or
re-registering an existing name, can cause reuse: see `C2_counterexample`.) -/
theorem C2_amended_no_index_reuse (known : List (String × HDProgramEntry))
    (assigned : List Nat) (h : GoodReach known assigned) :
    ∀ a ∈ assigned, a < generate_program_index known := by
  induction h with
  | init => simp
  | reg known assigned name prog seqc _ hfresh ih =>
    have hstep : register_entry known name prog seqc
        = known ++ [(name, ⟨prog, generate_program_index known, seqc⟩)] := by
      unfold register_entry
      exact odInsert_fresh name _ known hfresh
    have hgpi' : generate_program_index (register_entry known name prog seqc)
        = generate_program_index known + 1 := by
      rw [hstep]
      unfold generate_program_index
      rw [List.getLast?_concat]
    intro a ha
    rcases List.mem_append.mp ha with ha | ha
    · have := ih a ha
      omega
    · have : a = generate_program_index known := by simpa using ha
      omega
  | rem known known' assigned name _ hlast hpop ih =>
    have hgl : known'.getLast? = known.getLast? :=
      odPop_getLast? name known known' hpop hlast
    intro a ha
    have hia := ih a ha
    unfold generate_program_index at hia ⊢
    rw [hgl]
    exact hia

/-- Witness for the amended C2: after one good registration of "A" from the
empty registry, the single assigned index 1 is strictly below the next index
2, by `C2_amended_no_index_reuse`. -/
theorem C2_amended_witness :
    1 < generate_program_index (register_entry [] "A" (Loop.node [] 1) []) :=
  C2_amended_no_index_reuse _ _
    (GoodReach.reg [] [] "A" (Loop.node [] 1) [] GoodReach.init (by simp))
    1 (by decide)


/-- Two strings differing at some character position are different. -/
theorem str_ne_of_data_getElem (s t : String) (i : Nat)
    (h : s.data[i]? ≠ t.data[i]?) : s ≠ t :=
  fun he => h (by rw [he])

/-- Blankness distributes over string append. -/
theorem isBlank_append (s t : String) :
    isBlank (s ++ t) = (isBlank s && isBlank t) := by
  simp [isBlank, String.data_append, List.all_append]

/-- A whitespace-only line is not an arm label. -/
theorem isArmLabel_of_blank (l : String) (h : isBlank l = true) :
    isArmLabel l = false := by
  unfold isArmLabel
  have h1 : "        case ".data.isPrefixOf l.data = false := by
    cases hp : "        case ".data.isPrefixOf l.data with
    | false => rfl
    | true =>
      have hpre : "        case ".data <+: l.data :=
        List.isPrefixOf_iff_prefix.mp hp
      have hc : 'c' ∈ l.data := hpre.subset (by decide)
      have hw := List.all_eq_true.mp (by simpa [isBlank] using h) 'c' hc
      exact absurd hw (by decide)
  have h2 : (l == "        default:") = false := by
    cases hb : l == "        default:" with
    | false => rfl
    | true =>
      have he : l = "        default:" := eq_of_beq hb
      rw [he] at h
      exact absurd h (by decide)
  rw [h1, h2]
  rfl

/-- A line carrying the body indentation (eight plus four spaces) is not an
arm label, whatever its content. -/
theorem isArmLabel_indent12 (l : String) :
    isArmLabel ("        " ++ ("    " ++ l)) = false := by
  have hne : ("        " ++ ("    " ++ l)) ≠ "        default:" := by
    apply str_ne_of_data_getElem _ _ 8
    rw [String.data_append, String.data_append]
    rw [List.getElem?_append_right (by decide)]
    rw [List.getElem?_append_left (by decide)]
    decide
  simp [isArmLabel, String.data_append, List.isPrefixOf_cons₂,
    List.isPrefixOf_nil_left, hne]

/-- An eight-space-indented `case ` line is an arm label. -/
theorem isArmLabel_case (s : String) :
    isArmLabel ("        " ++ ("case " ++ s)) = true := by
  simp [isArmLabel, String.data_append, List.isPrefixOf_cons₂,
    List.isPrefixOf_nil_left]

/-- The banner line of the sequencer document is not an arm label, whatever
the upload timestamp. -/
theorem isArmLabel_headerline (ut : String) :
    isArmLabel ("//////////  qupulse sequence (" ++ ut ++ ") //////////")
      = false := by
  have hne : ("//////////  qupulse sequence (" ++ ut ++ ") //////////")
      ≠ "        default:" := by
    apply str_ne_of_data_getElem _ _ 0
    rw [String.data_append, String.data_append]
    rw [@List.getElem?_append_left _ _ (") //////////".data) _ (by simp)]
    rw [List.getElem?_append_left (by decide)]
    decide
  simp [isArmLabel, String.data_append, List.isPrefixOf_cons₂,
    List.isPrefixOf_nil_left, hne]

/-- No line of a case arm's doubly indented body is an arm label. -/
theorem filter_indent_inner (ys : List String) :
    (((textwrap_indent ys "    ").map
        (fun l => if isBlank l then l else "        " ++ l)).filter
      isArmLabel) = [] := by
  induction ys with
  | nil => rfl
  | cons y ys ih =>
    unfold textwrap_indent at ih ⊢
    simp only [List.map_cons, List.filter_cons]
    by_cases hb : isBlank y
    · rw [if_pos hb, if_pos hb, isArmLabel_of_blank y hb]
      simpa using ih
    · have hb4 : ¬ isBlank ("    " ++ y) = true := by
        rw [isBlank_append]
        simp only [Bool.and_eq_true, not_and]
        intro _
        exact hb
      rw [if_neg hb, if_neg hb4, isArmLabel_indent12 y]
      simpa using ih

/-- A wrapped case arm contains exactly one arm-label line: its own `case`
label, carrying the program's index and name. -/
theorem filter_case_wrap (e : HDProgramEntry) (name : String) :
    (case_wrap_program e name).filter isArmLabel
      = ["        case " ++ toString e.index ++ ": // Program name: " ++ name] := by
  unfold case_wrap_program
  rw [show String.mk (List.replicate 8 ' ') = "        " from rfl]
  unfold textwrap_indent
  simp only [List.map_cons, List.filter_cons]
  have hblabel : ¬ isBlank ("case " ++ toString e.index
      ++ ": // Program name: " ++ name) = true := by
    rw [show ("case " ++ toString e.index ++ ": // Program name: " ++ name)
        = "case " ++ (toString e.index ++ (": // Program name: " ++ name)) by
      rw [String.append_assoc, String.append_assoc]]
    rw [isBlank_append]
    simp only [Bool.and_eq_true, not_and]
    intro hfalse
    exact absurd hfalse (by decide)
  rw [if_neg hblabel]
  have harm : isArmLabel ("        " ++ ("case " ++ toString e.index
      ++ ": // Program name: " ++ name)) = true := by
    rw [show ("case " ++ toString e.index ++ ": // Program name: " ++ name)
        = "case " ++ (toString e.index ++ (": // Program name: " ++ name)) by
      rw [String.append_assoc, String.append_assoc]]
    exact isArmLabel_case _
  rw [harm]
  simp only [if_true]
  have hrest := filter_indent_inner (e.seqc_rep ++ ["// end of " ++ name])
  unfold textwrap_indent at hrest
  rw [hrest]
  congr 1


/-- The case block contains exactly one arm label per known program, in the
registry's insertion order. -/
theorem filter_case_block (known : List (String × HDProgramEntry)) :
    (assemble_case_block known).filter isArmLabel
      = known.map (fun p =>
          "        case " ++ toString p.2.index ++ ": // Program name: " ++ p.1) := by
  unfold assemble_case_block
  induction known with
  | nil => rfl
  | cons p ps ih =>
    simp only [List.map_cons, List.flatten_cons, List.filter_append,
      filter_case_wrap, ih]
    rfl

/-- The template part before the case block contributes no arm label. -/
theorem filter_header (ut : String) :
    (sequencer_header ut).filter isArmLabel = [] := by
  unfold sequencer_header
  rw [List.filter_cons]
  rw [isArmLabel_headerline ut]
  simp only [Bool.false_eq_true, if_false]
  decide

/-- The template part after the case block contributes exactly the `default`
arm label. -/
theorem filter_footer : sequencer_footer.filter isArmLabel
    = ["        default:"] := by decide

/-- A wrapped case arm is never empty. -/
theorem case_wrap_ne_nil (e : HDProgramEntry) (name : String) :
    case_wrap_program e name ≠ [] := by
  simp [case_wrap_program, textwrap_indent]

/-- **C6**: the assembled sequencer document contains exactly one dispatch-arm
label per currently registered program — `case <index>: // Program name:
<name>` at switch level, labeled with that program's assigned index — in the
registry's insertion order, followed by exactly one `default` arm label; and
the `default` arm plays the reserved idle waveform (`playWave(1, idle);`). -/
theorem C6_assembly (known : List (String × HDProgramEntry))
    (upload_time : String) :
    (assemble_sequencer_program known upload_time).filter isArmLabel
      = known.map (fun p =>
          "        case " ++ toString p.2.index ++ ": // Program name: " ++ p.1)
        ++ ["        default:"] ∧
    ["        default:", "            playWave(1, idle);"]
      <:+: assemble_sequencer_program known upload_time := by
  constructor
  · unfold assemble_sequencer_program
    rw [List.filter_append, List.filter_append, filter_header, filter_footer]
    by_cases hk : (assemble_case_block known).isEmpty
    · have hkn : known = [] := by
        cases hkc : known with
        | nil => rfl
        | cons p ps =>
          exfalso
          rw [hkc] at hk  -- hmm hk already about known; hkc substitutes
          unfold assemble_case_block at hk
          simp only [List.map_cons, List.flatten_cons, List.isEmpty_eq_true,
            List.append_eq_nil] at hk
          exact case_wrap_ne_nil p.2 p.1 hk.1
      subst hkn
      rw [if_pos hk]
      decide
    · rw [if_neg hk, filter_case_block]
      simp
  · refine ⟨sequencer_header upload_time
      ++ (if (assemble_case_block known).isEmpty then [""]
          else assemble_case_block known),
      ["    \x7d", "\x7d", ""], ?_⟩
    unfold assemble_sequencer_program sequencer_footer
    simp [List.append_assoc]

end HDAWGProgramManager

namespace HDAWGWaveManager
/-- Appending a fresh key to an association list makes it found. -/
theorem lookup_append_of_none {β : Type _} (k : Int) (v : β)
    (l : List (Int × β)) (h : l.lookup k = none) :
    (l ++ [(k, v)]).lookup k = some v := by
  induction l with
  | nil => simp [List.lookup]
  | cons a rest ih =>
    rw [List.cons_append, List.lookup]
    rw [List.lookup] at h
    cases hk : (k == a.1) with
    | true => rw [hk] at h; simp at h
    | false => rw [hk] at h; exact ih h

/-- After a write, the written path holds the written data. -/
theorem fileSet_lookup_self (p : String) (d : FileData)
    (files : List (String × FileData)) :
    (fileSet p d files).lookup p = some d := by
  induction files with
  | nil => simp [fileSet, List.lookup]
  | cons f rest ih =>
    unfold fileSet
    by_cases hp : f.1 = p
    · rw [if_pos hp]
      have : (p == f.1) = true := by simp [hp]
      simp [List.lookup, this]
    · rw [if_neg hp]
      have : (p == f.1) = false := by
        simp only [beq_eq_false_iff_ne, ne_eq]
        exact fun he => hp he.symm
      simp [List.lookup, this, ih]

/-- A write never deletes an existing file. -/
theorem fileExists_fileSet_mono (p p' : String) (d : FileData)
    (files : List (String × FileData)) (h : fileExists p files = true) :
    fileExists p (fileSet p' d files) = true := by
  by_cases hp : p' = p
  · subst hp
    simp [fileExists, fileSet_lookup_self]
  · unfold fileExists at h ⊢
    induction files with
    | nil => simp [List.lookup] at h
    | cons f rest ih =>
      unfold fileSet
      by_cases hf : f.1 = p'
      · rw [if_pos hf]
        rw [List.lookup] at h ⊢
        cases hk : (p == f.1) with
        | true =>
          have : p = f.1 := eq_of_beq hk
          exact absurd (this.trans hf) (fun he => hp he.symm)
        | false => rw [hk] at h; simpa [hk] using h
      · rw [if_neg hf]
        rw [List.lookup] at h ⊢
        cases hk : (p == f.1) with
        | true => simp
        | false =>
          rw [hk] at h
          simpa [hk] using ih h


/-- A path that is not found occurs zero times. -/
theorem countP_zero_of_lookup_none (p : String)
    (files : List (String × FileData)) (h : files.lookup p = none) :
    files.countP (fun f => f.1 == p) = 0 := by
  induction files with
  | nil => rfl
  | cons f rest ih =>
    rw [List.lookup] at h
    cases hk : (p == f.1) with
    | true => rw [hk] at h; simp at h
    | false =>
      rw [hk] at h
      have hk' : (f.1 == p) = false := by
        simp only [beq_eq_false_iff_ne, ne_eq] at hk ⊢
        exact fun he => hk he.symm
      rw [List.countP_cons]
      simp [hk', ih h]

/-- Writing a path that was absent makes it occur exactly once. -/
theorem countP_fileSet_new (p : String) (d : FileData)
    (files : List (String × FileData)) (h : files.lookup p = none) :
    (fileSet p d files).countP (fun f => f.1 == p) = 1 := by
  induction files with
  | nil => simp [fileSet, List.countP_cons]
  | cons f rest ih =>
    rw [List.lookup] at h
    cases hk : (p == f.1) with
    | true => rw [hk] at h; simp at h
    | false =>
      rw [hk] at h
      unfold fileSet
      have hne : ¬ f.1 = p := by
        simp only [beq_eq_false_iff_ne, ne_eq] at hk
        exact fun he => hk he.symm
      rw [if_neg hne]
      rw [List.countP_cons]
      have hk' : (f.1 == p) = false := by
        simp only [beq_eq_false_iff_ne, ne_eq]
        exact hne
      simp [hk', ih h]


/-- Writing some other path does not change a path's occurrence count. -/
theorem countP_fileSet_of_ne (p p' : String) (d : FileData)
    (files : List (String × FileData)) (hne : p ≠ p') :
    (fileSet p' d files).countP (fun f => f.1 == p)
      = files.countP (fun f => f.1 == p) := by
  induction files with
  | nil =>
    have : (p' == p) = false := by
      simp only [beq_eq_false_iff_ne, ne_eq]
      exact fun he => hne he.symm
    simp [fileSet, List.countP_cons, this]
  | cons f rest ih =>
    unfold fileSet
    by_cases hf : f.1 = p'
    · rw [if_pos hf]
      rw [List.countP_cons, List.countP_cons, hf]
    · rw [if_neg hf]
      rw [List.countP_cons, List.countP_cons, ih]

/-- Overwriting an existing path does not change its occurrence count. -/
theorem countP_fileSet_self_of_exists (p : String) (d : FileData)
    (files : List (String × FileData)) (h : fileExists p files = true) :
    (fileSet p d files).countP (fun f => f.1 == p)
      = files.countP (fun f => f.1 == p) := by
  induction files with
  | nil => simp [fileExists, List.lookup] at h
  | cons f rest ih =>
    unfold fileSet
    by_cases hf : f.1 = p
    · rw [if_pos hf]
      rw [List.countP_cons, List.countP_cons, hf]
    · rw [if_neg hf]
      rw [List.countP_cons, List.countP_cons, ih]
      unfold fileExists at h ⊢
      rw [List.lookup] at h
      have hk : (p == f.1) = false := by
        simp only [beq_eq_false_iff_ne, ne_eq]
        exact fun he => hf he.symm
      rw [hk] at h
      exact h

/-- No write changes the occurrence count of a path that already exists. -/
theorem countP_fileSet_of_exists (p p' : String) (d : FileData)
    (files : List (String × FileData)) (h : fileExists p files = true) :
    (fileSet p' d files).countP (fun f => f.1 == p)
      = files.countP (fun f => f.1 == p) := by
  by_cases hpe : p = p'
  · subst hpe
    exact countP_fileSet_self_of_exists p d files h
  · exact countP_fileSet_of_ne p p' d files hpe


/-- After a successful wave block with `overwrite = false`: the amplitude hash
maps to the returned name, the artifact file exists, the marker cache is
untouched, and if the file did not exist before it now occurs exactly once. -/
theorem register_wave_block_post (awgId : String) (st st1 : WaveManagerState)
    (a : List (List ℚ)) (nm : String)
    (h : register_wave_block awgId st a false = .ok (st1, nm)) :
    st1.wave_by_data.lookup (calc_hash a) = some nm ∧
    fileExists (full_file_path nm) st1.files = true ∧
    st1.marker_by_data = st.marker_by_data ∧
    (fileExists (full_file_path nm) st.files = false →
      st1.files.countP (fun f => f.1 == full_file_path nm) = 1) := by
  unfold register_wave_block at h
  dsimp only at h
  cases hl : st.wave_by_data.lookup (calc_hash a) with
  | some nm' =>
    rw [hl] at h
    simp only at h
    by_cases hex : fileExists (full_file_path nm') st.files
    · rw [if_neg (by simp [hex])] at h
      obtain ⟨h1, h2⟩ := Prod.mk.injEq .. ▸ Except.ok.inj h
      subst h2
      rw [← h1]
      refine ⟨by simpa using hl, by simpa using hex, rfl, ?_⟩
      intro hno
      rw [hno] at hex
      simp at hex
    · rw [if_pos (by simp [hex])] at h
      unfold to_file at h
      rw [if_neg (by simp [hex])] at h
      simp only at h
      obtain ⟨h1, h2⟩ := Prod.mk.injEq .. ▸ Except.ok.inj h
      subst h2
      rw [← h1]
      refine ⟨by simpa using hl, ?_, rfl, ?_⟩
      · simp [fileExists, fileSet_lookup_self]
      · intro hno
        simp only at hno ⊢
        apply countP_fileSet_new
        simpa [fileExists] using hno
  | none =>
    rw [hl] at h
    simp only at h
    set nm' := generate_wave_name awgId (calc_hash a) with hnm'
    by_cases hex : fileExists (full_file_path nm') st.files
    · rw [if_neg (by simp [hex])] at h
      obtain ⟨h1, h2⟩ := Prod.mk.injEq .. ▸ Except.ok.inj h
      subst h2
      rw [← h1]
      refine ⟨lookup_append_of_none _ _ _ hl, by simpa using hex, rfl, ?_⟩
      intro hno
      rw [hno] at hex
      simp at hex
    · rw [if_pos (by simp [hex])] at h
      unfold to_file at h
      rw [if_neg (by simp [hex])] at h
      simp only at h
      obtain ⟨h1, h2⟩ := Prod.mk.injEq .. ▸ Except.ok.inj h
      subst h2
      rw [← h1]
      refine ⟨lookup_append_of_none _ _ _ hl, ?_, rfl, ?_⟩
      · simp [fileExists, fileSet_lookup_self]
      · intro hno
        apply countP_fileSet_new
        simpa [fileExists] using hno


/-- A wave block whose hash is cached and whose artifact exists changes
nothing and returns the cached name. -/
theorem register_wave_block_idem (awgId : String) (st : WaveManagerState)
    (a : List (List ℚ)) (nm : String)
    (h1 : st.wave_by_data.lookup (calc_hash a) = some nm)
    (h2 : fileExists (full_file_path nm) st.files = true) :
    register_wave_block awgId st a false = .ok (st, nm) := by
  unfold register_wave_block
  dsimp only
  rw [h1]
  rw [if_neg (by simp [h2])]

/-- After a successful marker block with `overwrite = false`: the marker hash
maps to the returned name, the artifact file exists, the wave cache is
untouched, and the filesystem changed by at most one write. -/
theorem register_marker_block_post (awgId : String) (st st1 : WaveManagerState)
    (a : List (List ℚ)) (nm : String)
    (h : register_marker_block awgId st a false = .ok (st1, nm)) :
    st1.marker_by_data.lookup (calc_hash a) = some nm ∧
    fileExists (full_file_path nm) st1.files = true ∧
    st1.wave_by_data = st.wave_by_data ∧
    (st1.files = st.files ∨ ∃ p' d, st1.files = fileSet p' d st.files) := by
  unfold register_marker_block at h
  dsimp only at h
  cases hl : st.marker_by_data.lookup (calc_hash a) with
  | some nm' =>
    rw [hl] at h
    by_cases hex : fileExists (full_file_path nm') st.files
    · rw [if_neg (by simp [hex])] at h
      obtain ⟨hh1, hh2⟩ := Prod.mk.injEq .. ▸ Except.ok.inj h
      subst hh2
      rw [← hh1]
      exact ⟨by simpa using hl, by simpa using hex, rfl, Or.inl rfl⟩
    · rw [if_pos (by simp [hex])] at h
      unfold to_file at h
      rw [if_neg (by simp [hex])] at h
      obtain ⟨hh1, hh2⟩ := Prod.mk.injEq .. ▸ Except.ok.inj h
      subst hh2
      rw [← hh1]
      refine ⟨by simpa using hl, ?_, rfl, Or.inr ⟨_, _, rfl⟩⟩
      simp [fileExists, fileSet_lookup_self]
  | none =>
    rw [hl] at h
    by_cases hex : fileExists
        (full_file_path (generate_marker_name awgId (calc_hash a))) st.files
    · rw [if_neg (by simp [hex])] at h
      obtain ⟨hh1, hh2⟩ := Prod.mk.injEq .. ▸ Except.ok.inj h
      subst hh2
      rw [← hh1]
      exact ⟨lookup_append_of_none _ _ _ hl, by simpa using hex, rfl, Or.inl rfl⟩
    · rw [if_pos (by simp [hex])] at h
      unfold to_file at h
      rw [if_neg (by simp [hex])] at h
      obtain ⟨hh1, hh2⟩ := Prod.mk.injEq .. ▸ Except.ok.inj h
      subst hh2
      rw [← hh1]
      refine ⟨lookup_append_of_none _ _ _ hl, ?_, rfl, Or.inr ⟨_, _, rfl⟩⟩
      simp [fileExists, fileSet_lookup_self]

/-- A marker block whose hash is cached and whose artifact exists changes
nothing and returns the cached name. -/
theorem register_marker_block_idem (awgId : String) (st : WaveManagerState)
    (a : List (List ℚ)) (nm : String)
    (h1 : st.marker_by_data.lookup (calc_hash a) = some nm)
    (h2 : fileExists (full_file_path nm) st.files = true) :
    register_marker_block awgId st a false = .ok (st, nm) := by
  unfold register_marker_block
  dsimp only
  rw [h1]
  rw [if_neg (by simp [h2])]


/-- **C4**: registering the same sample content twice with `overwrite = false`
is idempotent — the second `register` call returns the same wave and marker
references and leaves the cache state (maps and files) unchanged, so no second
persisted write occurs; and the first call performed exactly one persisted
write of the wave artifact when it was not present before. -/
theorem C4_dedup_idempotent (awgId : String) (st st1 : WaveManagerState)
    (w : Waveform) (channels markers : List (Option String))
    (vts : List (ℚ → ℚ)) (rng off : List ℚ) (w1 m1 : Option String)
    (h : register awgId st w channels markers vts rng off false
      = .ok (st1, w1, m1)) :
    register awgId st1 w channels markers vts rng off false
      = .ok (st1, w1, m1) ∧
    (∀ nm, w1 = some nm →
      fileExists (full_file_path nm) st.files = false →
      st1.files.countP (fun f => f.1 == full_file_path nm) = 1) := by
  unfold register at h
  dsimp only at h
  by_cases hch : channels.any Option.isSome
  · rw [if_pos hch] at h
    cases hb : build_amplitude w vts rng off 0 channels with
    | error e =>
      rw [hb] at h
      dsimp only at h
      exact Except.noConfusion h
    | ok cols =>
      rw [hb] at h
      dsimp only at h
      cases hwb : register_wave_block awgId st (matrix_rows cols w.n_samples) false with
      | error e =>
        rw [hwb] at h
        dsimp only at h
        exact Except.noConfusion h
      | ok pw =>
        obtain ⟨stW, nmw⟩ := pw
        rw [hwb] at h
        dsimp only at h
        have postw := register_wave_block_post awgId st stW
          (matrix_rows cols w.n_samples) nmw hwb
        by_cases hmk : markers.any Option.isSome
        · rw [if_pos hmk] at h
          cases hmb : register_marker_block awgId stW
              (matrix_rows (build_marker_cols w markers) w.n_samples) false with
          | error e =>
            rw [hmb] at h
            dsimp only at h
            exact Except.noConfusion h
          | ok pm =>
            obtain ⟨stM, nmm⟩ := pm
            rw [hmb] at h
            dsimp only at h
            obtain ⟨hst, hwm⟩ := Prod.mk.injEq .. ▸ Except.ok.inj h
            obtain ⟨hw1, hm1⟩ := Prod.mk.injEq .. ▸ hwm
            obtain rfl := hst.symm
            subst hw1
            subst hm1
            have postm := register_marker_block_post awgId stW st1
              (matrix_rows (build_marker_cols w markers) w.n_samples) nmm hmb
            have hlw : st1.wave_by_data.lookup
                (calc_hash (matrix_rows cols w.n_samples)) = some nmw := by
              rw [postm.2.2.1]
              exact postw.1
            have hfw : fileExists (full_file_path nmw) st1.files = true := by
              rcases postm.2.2.2 with hf | ⟨p', d, hf⟩
              · rw [hf]; exact postw.2.1
              · rw [hf]; exact fileExists_fileSet_mono _ p' d _ postw.2.1
            have widem := register_wave_block_idem awgId st1
              (matrix_rows cols w.n_samples) nmw hlw hfw
            have midem := register_marker_block_idem awgId st1
              (matrix_rows (build_marker_cols w markers) w.n_samples) nmm
              postm.1 postm.2.1
            constructor
            · unfold register
              dsimp only
              rw [if_pos hch, hb]
              dsimp only
              rw [widem]
              dsimp only
              rw [if_pos hmk, midem]
            · intro nm hnm hpre
              obtain rfl := Option.some.inj hnm
              have hcount : stW.files.countP (fun f => f.1 == full_file_path nmw) = 1 :=
                postw.2.2.2 hpre
              rcases postm.2.2.2 with hf | ⟨p', d, hf⟩
              · rw [hf]; exact hcount
              · rw [hf]
                rw [countP_fileSet_of_exists _ p' d _ postw.2.1]
                exact hcount
        · rw [if_neg hmk] at h
          dsimp only at h
          obtain ⟨hst, hwm⟩ := Prod.mk.injEq .. ▸ Except.ok.inj h
          obtain ⟨hw1, hm1⟩ := Prod.mk.injEq .. ▸ hwm
          obtain rfl := hst.symm
          subst hw1
          subst hm1
          have widem := register_wave_block_idem awgId st1
            (matrix_rows cols w.n_samples) nmw postw.1 postw.2.1
          constructor
          · unfold register
            dsimp only
            rw [if_pos hch, hb]
            dsimp only
            rw [widem]
            dsimp only
            rw [if_neg hmk]
          · intro nm hnm hpre
            obtain rfl := Option.some.inj hnm
            exact postw.2.2.2 hpre
  · rw [if_neg hch] at h
    dsimp only at h
    by_cases hmk : markers.any Option.isSome
    · rw [if_pos hmk] at h
      cases hmb : register_marker_block awgId st
          (matrix_rows (build_marker_cols w markers) w.n_samples) false with
      | error e =>
        rw [hmb] at h
        dsimp only at h
        exact Except.noConfusion h
      | ok pm =>
        obtain ⟨stM, nmm⟩ := pm
        rw [hmb] at h
        dsimp only at h
        obtain ⟨hst, hwm⟩ := Prod.mk.injEq .. ▸ Except.ok.inj h
        obtain ⟨hw1, hm1⟩ := Prod.mk.injEq .. ▸ hwm
        obtain rfl := hst.symm
        subst hw1
        subst hm1
        have postm := register_marker_block_post awgId st st1
          (matrix_rows (build_marker_cols w markers) w.n_samples) nmm hmb
        have midem := register_marker_block_idem awgId st1
          (matrix_rows (build_marker_cols w markers) w.n_samples) nmm
          postm.1 postm.2.1
        constructor
        · unfold register
          dsimp only
          rw [if_neg hch]
          dsimp only
          rw [if_pos hmk, midem]
        · intro nm hnm
          exact absurd hnm (by simp)
    · rw [if_neg hmk] at h
      dsimp only at h
      obtain ⟨hst, hwm⟩ := Prod.mk.injEq .. ▸ Except.ok.inj h
      obtain ⟨hw1, hm1⟩ := Prod.mk.injEq .. ▸ hwm
      obtain rfl := hst.symm
      subst hw1
      subst hm1
      constructor
      · unfold register
        dsimp only
        rw [if_neg hch]
        dsimp only
        rw [if_neg hmk]
      · intro nm hnm
        exact absurd hnm (by simp)


/-- Witness for C4: a concrete second registration of the same content is the
identity on the cache state and returns the same reference, and the single
wave artifact occurs exactly once, by `C4_dedup_idempotent`. -/
theorem C4_dedup_idempotent_witness :
    register "awg"
        ⟨[(calc_hash [[1/2, 0]], generate_wave_name "awg" (calc_hash [[1/2, 0]]))],
         [],
         [(full_file_path (generate_wave_name "awg" (calc_hash [[1/2, 0]])),
           ⟨[[1/2, 0]], "%f"⟩)]⟩
        ⟨1, fun _ => [1/2]⟩ [some "a", none] [none, none] [id, id] [1, 1] [0, 0] false
      = .ok
        (⟨[(calc_hash [[1/2, 0]], generate_wave_name "awg" (calc_hash [[1/2, 0]]))],
          [],
          [(full_file_path (generate_wave_name "awg" (calc_hash [[1/2, 0]])),
            ⟨[[1/2, 0]], "%f"⟩)]⟩,
         some (generate_wave_name "awg" (calc_hash [[1/2, 0]])), none) ∧
    (∀ nm, (some (generate_wave_name "awg" (calc_hash [[1/2, 0]])) = some nm) →
      fileExists (full_file_path nm)
          (WaveManagerState.files ⟨[], [], []⟩) = false →
      (List.countP (fun f => f.1 == full_file_path nm)
        (WaveManagerState.files
          ⟨[(calc_hash [[1/2, 0]], generate_wave_name "awg" (calc_hash [[1/2, 0]]))],
           [],
           [(full_file_path (generate_wave_name "awg" (calc_hash [[1/2, 0]])),
             ⟨[[1/2, 0]], "%f"⟩)]⟩)) = 1) := by
  have hfirst : register "awg" ⟨[], [], []⟩ ⟨1, fun _ => [1/2]⟩ [some "a", none]
      [none, none] [id, id] [1, 1] [0, 0] false
    = .ok
      (⟨[(calc_hash [[1/2, 0]], generate_wave_name "awg" (calc_hash [[1/2, 0]]))],
        [],
        [(full_file_path (generate_wave_name "awg" (calc_hash [[1/2, 0]])),
          ⟨[[1/2, 0]], "%f"⟩)]⟩,
       some (generate_wave_name "awg" (calc_hash [[1/2, 0]])), none) := by
    rw [register]
    norm_num [build_amplitude, volt_to_amp, ratAbs]
    rw [show matrix_rows [[1/2], [0]] 1 = [[1/2, 0]] by
      norm_num [matrix_rows, List.range, List.range.loop]]
    norm_num [register_wave_block, to_file, fileExists, fileSet]
  exact C4_dedup_idempotent "awg" ⟨[], [], []⟩ _ ⟨1, fun _ => [1/2]⟩
    [some "a", none] [none, none] [id, id] [1, 1] [0, 0] _ _ hfirst

end HDAWGWaveManager

namespace HDAWGWaveManager
/-- `ratAbs` is nonnegative. -/
theorem ratAbs_nonneg (q : ℚ) : 0 ≤ ratAbs q := by
  rw [ratAbs_eq_abs]; exact abs_nonneg q

/-- Every per-sample deviation is bounded by the reported maximum. -/
theorem le_maxAbsDev (volt : List ℚ) (off : ℚ) :
    ∀ v ∈ volt, ratAbs (v - off) ≤ maxAbsDev volt off := by
  induction volt with
  | nil => simp
  | cons a rest ih =>
    intro v hv
    unfold maxAbsDev at ih ⊢
    simp only [List.map_cons, List.foldr_cons]
    rcases List.mem_cons.mp hv with rfl | hv'
    · rw [ratMax_eq_max]; exact le_max_left _ _
    · rw [ratMax_eq_max]
      exact le_trans (ih v hv') (le_max_right _ _)

/-- On a non-empty channel the reported maximum is an actual deviation. -/
theorem maxAbsDev_mem (volt : List ℚ) (off : ℚ) (hne : volt ≠ []) :
    ∃ v ∈ volt, maxAbsDev volt off = ratAbs (v - off) := by
  induction volt with
  | nil => exact absurd rfl hne
  | cons a rest ih =>
    unfold maxAbsDev at ih ⊢
    simp only [List.map_cons, List.foldr_cons]
    cases rest with
    | nil =>
      refine ⟨a, by simp, ?_⟩
      simp only [List.map_nil, List.foldr_nil]
      rw [ratMax_eq_max, max_eq_left (ratAbs_nonneg _)]
    | cons b bs =>
      obtain ⟨v, hv, hveq⟩ := ih (by simp)
      rw [ratMax_eq_max]
      rcases max_cases (ratAbs (a - off))
        (((b :: bs).map (fun v => ratAbs (v - off))).foldr ratMax 0) with
        ⟨hmeq, _⟩ | ⟨hmeq, _⟩
      · exact ⟨a, by simp, hmeq⟩
      · exact ⟨v, List.mem_cons_of_mem _ hv, by rw [hmeq, hveq]⟩

/-- A `volt_to_amp` error is a `valueError` reporting the maximum deviation
and the range, and some sample deviates beyond the range. -/
theorem volt_to_amp_error_eq (volt : List ℚ) (rng off : ℚ) (e : HDAWGError)
    (h : volt_to_amp volt rng off = .error e) :
    e = .valueError (maxAbsDev volt off) rng ∧
    ∃ v ∈ volt, rng < ratAbs (v - off) := by
  unfold volt_to_amp at h
  by_cases hc : volt.any (fun v => decide (rng < ratAbs (v - off)))
  · rw [if_pos hc] at h
    refine ⟨(Except.error.inj h).symm, ?_⟩
    simpa using hc
  · rw [if_neg hc] at h
    exact Except.noConfusion h

/-- A sample deviating beyond the range makes `volt_to_amp` raise. -/
theorem volt_to_amp_error_intro (volt : List ℚ) (rng off : ℚ)
    (h : ∃ v ∈ volt, rng < ratAbs (v - off)) :
    volt_to_amp volt rng off = .error (.valueError (maxAbsDev volt off) rng) := by
  unfold volt_to_amp
  rw [if_pos (by simpa using h)]


/-- An amplitude-building error originates at some assigned slot `j` whose
transformed samples deviate beyond `output_range[j]` around
`output_offset[j]`, and reports that slot's maximum deviation and range. -/
theorem build_amplitude_error_elim (w : Waveform) (vts : List (ℚ → ℚ))
    (rng off : List ℚ) :
    ∀ (channels : List (Option String)) (idx : Nat) (e : HDAWGError),
    build_amplitude w vts rng off idx channels = .error e →
    ∃ j chan, channels[j]? = some (some chan) ∧
      e = .valueError
        (maxAbsDev ((w.get_sampled chan).map (vts.getD (idx + j) id))
          (off.getD (idx + j) 0))
        (rng.getD (idx + j) 0) ∧
      ∃ v ∈ (w.get_sampled chan).map (vts.getD (idx + j) id),
        rng.getD (idx + j) 0 < ratAbs (v - off.getD (idx + j) 0) := by
  intro channels
  induction channels with
  | nil => intro idx e he; simp [build_amplitude] at he
  | cons c rest ih =>
    intro idx e he
    cases c with
    | none =>
      unfold build_amplitude at he
      cases hb : build_amplitude w vts rng off (idx + 1) rest with
      | error e' =>
        rw [hb] at he
        dsimp only at he
        obtain rfl := Except.error.inj he
        obtain ⟨j, chan, hj, heq, hviol⟩ := ih (idx + 1) e' hb
        refine ⟨j + 1, chan, by simpa using hj, ?_, ?_⟩
        · have harith : idx + 1 + j = idx + (j + 1) := by omega
          rw [harith] at heq
          exact heq
        · have harith : idx + 1 + j = idx + (j + 1) := by omega
          rw [harith] at hviol
          exact hviol
      | ok cols =>
        rw [hb] at he
        dsimp only at he
        exact Except.noConfusion he
    | some chan0 =>
      unfold build_amplitude at he
      dsimp only at he
      cases hv : volt_to_amp ((w.get_sampled chan0).map (vts.getD idx id))
          (rng.getD idx 0) (off.getD idx 0) with
      | error e' =>
        rw [hv] at he
        dsimp only at he
        obtain rfl := Except.error.inj he
        obtain ⟨heq, hviol⟩ := volt_to_amp_error_eq _ _ _ _ hv
        refine ⟨0, chan0, by simp, ?_, ?_⟩
        · simpa using heq
        · simpa using hviol
      | ok col =>
        rw [hv] at he
        dsimp only at he
        cases hb : build_amplitude w vts rng off (idx + 1) rest with
        | error e' =>
          rw [hb] at he
          dsimp only at he
          obtain rfl := Except.error.inj he
          obtain ⟨j, chan, hj, heq, hviol⟩ := ih (idx + 1) e' hb
          refine ⟨j + 1, chan, by simpa using hj, ?_, ?_⟩
          · have harith : idx + 1 + j = idx + (j + 1) := by omega
            rw [harith] at heq
            exact heq
          · have harith : idx + 1 + j = idx + (j + 1) := by omega
            rw [harith] at hviol
            exact hviol
        | ok cols =>
          rw [hb] at he
          dsimp only at he
          exact Except.noConfusion he

/-- A violation on any assigned slot makes amplitude building fail. -/
theorem build_amplitude_error_intro (w : Waveform) (vts : List (ℚ → ℚ))
    (rng off : List ℚ) :
    ∀ (channels : List (Option String)) (idx : Nat),
    (∃ j chan, channels[j]? = some (some chan) ∧
      ∃ v ∈ (w.get_sampled chan).map (vts.getD (idx + j) id),
        rng.getD (idx + j) 0 < ratAbs (v - off.getD (idx + j) 0)) →
    ∃ e, build_amplitude w vts rng off idx channels = .error e := by
  intro channels
  induction channels with
  | nil =>
    rintro idx ⟨j, chan, hj, _⟩
    simp at hj
  | cons c rest ih =>
    rintro idx ⟨j, chan, hj, hviol⟩
    cases c with
    | none =>
      cases j with
      | zero => simp at hj
      | succ k =>
        have hj' : rest[k]? = some (some chan) := by simpa using hj
        have harith : idx + (k + 1) = idx + 1 + k := by omega
        rw [harith] at hviol
        obtain ⟨e, he⟩ := ih (idx + 1) ⟨k, chan, hj', hviol⟩
        refine ⟨e, ?_⟩
        unfold build_amplitude
        rw [he]
    | some chan0 =>
      cases j with
      | zero =>
        have hc : chan0 = chan := by simpa using hj
        subst hc
        simp only [Nat.add_zero] at hviol
        have hverr := volt_to_amp_error_intro _ (rng.getD idx 0) (off.getD idx 0) hviol
        refine ⟨.valueError
          (maxAbsDev ((w.get_sampled chan0).map (vts.getD idx id)) (off.getD idx 0))
          (rng.getD idx 0), ?_⟩
        unfold build_amplitude
        dsimp only
        rw [hverr]
      | succ k =>
        have hj' : rest[k]? = some (some chan) := by simpa using hj
        have harith : idx + (k + 1) = idx + 1 + k := by omega
        rw [harith] at hviol
        obtain ⟨e, he⟩ := ih (idx + 1) ⟨k, chan, hj', hviol⟩
        cases hv : volt_to_amp ((w.get_sampled chan0).map (vts.getD idx id))
            (rng.getD idx 0) (off.getD idx 0) with
        | error e' =>
          refine ⟨e', ?_⟩
          unfold build_amplitude
          dsimp only
          rw [hv]
        | ok col =>
          refine ⟨e, ?_⟩
          unfold build_amplitude
          dsimp only
          rw [hv]
          dsimp only
          rw [he]


/-- `to_file` raises only `HDAWGIOError`. -/
theorem to_file_error_io (name : String) (data : List (List ℚ)) (fmt : String)
    (ov : Bool) (files : List (String × FileData)) (e : HDAWGError)
    (h : to_file name data fmt ov files = .error e) : ∃ p, e = .ioError p := by
  unfold to_file at h
  dsimp only at h
  split at h
  · exact ⟨_, (Except.error.inj h).symm⟩
  · exact Except.noConfusion h

/-- The wave block raises only `HDAWGIOError` (never a range violation). -/
theorem register_wave_block_error_io (awgId : String) (st : WaveManagerState)
    (a : List (List ℚ)) (ov : Bool) (e : HDAWGError) (st' : WaveManagerState)
    (h : register_wave_block awgId st a ov = .error (e, st')) :
    ∃ p, e = .ioError p := by
  unfold register_wave_block at h
  dsimp only at h
  split at h
  · cases ht : to_file
        (match st.wave_by_data.lookup (calc_hash a) with
          | some nm => (nm, st.wave_by_data)
          | none => (generate_wave_name awgId (calc_hash a),
              st.wave_by_data ++ [(calc_hash a, generate_wave_name awgId (calc_hash a))])).1
        a "%f" ov _ with
    | error e0 =>
      rw [ht] at h
      have hinj := Except.error.inj h
      have he : e0 = e := congrArg Prod.fst hinj
      exact he ▸ to_file_error_io _ _ _ _ _ _ ht
    | ok files =>
      rw [ht] at h
      exact Except.noConfusion h
  · exact Except.noConfusion h


/-- The marker block raises only `HDAWGIOError` (never a range violation). -/
theorem register_marker_block_error_io (awgId : String) (st : WaveManagerState)
    (a : List (List ℚ)) (ov : Bool) (e : HDAWGError) (st' : WaveManagerState)
    (h : register_marker_block awgId st a ov = .error (e, st')) :
    ∃ p, e = .ioError p := by
  unfold register_marker_block at h
  dsimp only at h
  split at h
  · cases ht : to_file
        (match st.marker_by_data.lookup (calc_hash a) with
          | some nm => (nm, st.marker_by_data)
          | none => (generate_marker_name awgId (calc_hash a),
              st.marker_by_data ++ [(calc_hash a, generate_marker_name awgId (calc_hash a))])).1
        a "%d" ov _ with
    | error e0 =>
      rw [ht] at h
      have hinj := Except.error.inj h
      have he : e0 = e := congrArg Prod.fst hinj
      exact he ▸ to_file_error_io _ _ _ _ _ _ ht
    | ok files =>
      rw [ht] at h
      exact Except.noConfusion h
  · exact Except.noConfusion h

/-- **C3**: `register` raises a range violation (`HDAWGValueError`) iff some
non-empty channel slot `j` has a transformed sample with
`|value - output_offset[j]| > output_range[j]`; in that case the wave-manager
state is unchanged (no artifact written, no cache entry recorded), and the
reported value is the maximum deviation of the offending slot — an actual
sample deviation, an upper bound of all of that slot's deviations, and itself
greater than the slot's range.  (Indices are read with a getD default, which
coincides with the source for in-range tuples of equal length — the source's
calling contract.) -/
theorem C3_range_violation (awgId : String) (st : WaveManagerState)
    (w : Waveform) (channels markers : List (Option String))
    (vts : List (ℚ → ℚ)) (rng off : List ℚ) (ov : Bool) :
    ((∃ m r st', register awgId st w channels markers vts rng off ov
        = .error (.valueError m r, st')) ↔
      (∃ j chan, channels[j]? = some (some chan) ∧
        ∃ v ∈ (w.get_sampled chan).map (vts.getD j id),
          rng.getD j 0 < |v - off.getD j 0|)) ∧
    (∀ m r st', register awgId st w channels markers vts rng off ov
        = .error (.valueError m r, st') →
      st' = st ∧
      ∃ j chan, channels[j]? = some (some chan) ∧
        (∃ v ∈ (w.get_sampled chan).map (vts.getD j id), m = |v - off.getD j 0|) ∧
        (∀ v ∈ (w.get_sampled chan).map (vts.getD j id), |v - off.getD j 0| ≤ m) ∧
        r = rng.getD j 0 ∧ r < m) := by
  have key : ∀ m r st', register awgId st w channels markers vts rng off ov
      = .error (.valueError m r, st') →
      st' = st ∧ ∃ e, build_amplitude w vts rng off 0 channels = .error e ∧
        e = .valueError m r := by
    intro m r st' h
    unfold register at h
    dsimp only at h
    by_cases hch : channels.any Option.isSome
    · rw [if_pos hch] at h
      cases hb : build_amplitude w vts rng off 0 channels with
      | error e =>
        rw [hb] at h
        dsimp only at h
        have hinj := Except.error.inj h
        have he : e = .valueError m r := congrArg Prod.fst hinj
        have hst : st = st' := congrArg Prod.snd hinj
        exact ⟨hst.symm, e, rfl, he⟩
      | ok cols =>
        rw [hb] at h
        dsimp only at h
        cases hwb : register_wave_block awgId st (matrix_rows cols w.n_samples) ov with
        | error p =>
          obtain ⟨e0, st0⟩ := p
          rw [hwb] at h
          dsimp only at h
          have hinj := Except.error.inj h
          have he : e0 = .valueError m r := congrArg Prod.fst hinj
          obtain ⟨pth, hio⟩ := register_wave_block_error_io awgId st _ ov e0 st0 hwb
          rw [hio] at he
          exact HDAWGError.noConfusion he
        | ok pw =>
          obtain ⟨stW, nmw⟩ := pw
          rw [hwb] at h
          dsimp only at h
          by_cases hmk : markers.any Option.isSome
          · rw [if_pos hmk] at h
            cases hmb : register_marker_block awgId stW
                (matrix_rows (build_marker_cols w markers) w.n_samples) ov with
            | error p =>
              obtain ⟨e0, st0⟩ := p
              rw [hmb] at h
              dsimp only at h
              have hinj := Except.error.inj h
              have he : e0 = .valueError m r := congrArg Prod.fst hinj
              obtain ⟨pth, hio⟩ := register_marker_block_error_io awgId stW _ ov e0 st0 hmb
              rw [hio] at he
              exact HDAWGError.noConfusion he
            | ok pm =>
              rw [hmb] at h
              dsimp only at h
              exact Except.noConfusion h
          · rw [if_neg hmk] at h
            dsimp only at h
            exact Except.noConfusion h
    · rw [if_neg hch] at h
      dsimp only at h
      by_cases hmk : markers.any Option.isSome
      · rw [if_pos hmk] at h
        cases hmb : register_marker_block awgId st
            (matrix_rows (build_marker_cols w markers) w.n_samples) ov with
        | error p =>
          obtain ⟨e0, st0⟩ := p
          rw [hmb] at h
          dsimp only at h
          have hinj := Except.error.inj h
          have he : e0 = .valueError m r := congrArg Prod.fst hinj
          obtain ⟨pth, hio⟩ := register_marker_block_error_io awgId st _ ov e0 st0 hmb
          rw [hio] at he
          exact HDAWGError.noConfusion he
        | ok pm =>
          rw [hmb] at h
          dsimp only at h
          exact Except.noConfusion h
      · rw [if_neg hmk] at h
        dsimp only at h
        exact Except.noConfusion h
  constructor
  · constructor
    · rintro ⟨m, r, st', h⟩
      obtain ⟨-, e, hb, he⟩ := key m r st' h
      obtain ⟨j, chan, hj, -, hviol⟩ :=
        build_amplitude_error_elim w vts rng off channels 0 e hb
      refine ⟨j, chan, hj, ?_⟩
      simpa [ratAbs_eq_abs] using hviol
    · rintro ⟨j, chan, hj, hviol⟩
      have hviol' : ∃ v ∈ (w.get_sampled chan).map (vts.getD (0 + j) id),
          rng.getD (0 + j) 0 < ratAbs (v - off.getD (0 + j) 0) := by
        simpa [ratAbs_eq_abs] using hviol
      obtain ⟨e, hb⟩ := build_amplitude_error_intro w vts rng off channels 0
        ⟨j, chan, by simpa using hj, hviol'⟩
      obtain ⟨j', chan', hj', heq, -⟩ :=
        build_amplitude_error_elim w vts rng off channels 0 e hb
      have hch : channels.any Option.isSome := by
        rcases List.getElem?_eq_some_iff.mp hj with ⟨hlt, hmem⟩
        refine List.any_eq_true.mpr ⟨some chan, ?_, rfl⟩
        exact hmem ▸ List.getElem_mem hlt
      refine ⟨maxAbsDev ((w.get_sampled chan').map (vts.getD (0 + j') id))
          (off.getD (0 + j') 0), rng.getD (0 + j') 0, st, ?_⟩
      unfold register
      dsimp only
      rw [if_pos hch, hb]
      dsimp only
      rw [heq]
  · intro m r st' h
    obtain ⟨hst, e, hb, he⟩ := key m r st' h
    obtain ⟨j, chan, hj, heq, hviol⟩ :=
      build_amplitude_error_elim w vts rng off channels 0 e hb
    rw [he] at heq
    have hm : m = maxAbsDev ((w.get_sampled chan).map (vts.getD (0 + j) id))
        (off.getD (0 + j) 0) := congrArg (fun x => match x with
          | HDAWGError.valueError mv _ => mv
          | HDAWGError.ioError _ => 0) heq
    have hr : r = rng.getD (0 + j) 0 := congrArg (fun x => match x with
          | HDAWGError.valueError _ rv => rv
          | HDAWGError.ioError _ => 0) heq
    simp only [Nat.zero_add] at hm hr hj hviol
    refine ⟨hst, j, chan, hj, ?_, ?_, hr, ?_⟩
    · obtain ⟨v0, hv0, -⟩ := hviol
      obtain ⟨v, hv, hveq⟩ := maxAbsDev_mem
        ((w.get_sampled chan).map (vts.getD j id)) (off.getD j 0)
        (List.ne_nil_of_mem hv0)
      refine ⟨v, hv, ?_⟩
      rw [hm, hveq, ratAbs_eq_abs]
    · intro v hv
      have := le_maxAbsDev ((w.get_sampled chan).map (vts.getD j id))
        (off.getD j 0) v hv
      rw [← hm] at this
      rw [← ratAbs_eq_abs]
      exact this
    · obtain ⟨v, hv, hlt⟩ := hviol
      have hle := le_maxAbsDev ((w.get_sampled chan).map (vts.getD j id))
        (off.getD j 0) v hv
      rw [← hm] at hle
      rw [hr]
      exact lt_of_lt_of_le hlt hle


/-- Witness for C3 at a concrete violating input: a single slot with sample 3,
range 1, offset 0 errors with reported maximum 3, leaving the state unchanged,
by `C3_range_violation`. -/
theorem C3_range_violation_witness :
    (⟨[], [], []⟩ : WaveManagerState) = ⟨[], [], []⟩ ∧
    ∃ j chan, ([some "a"] : List (Option String))[j]? = some (some chan) ∧
      (∃ v ∈ (Waveform.get_sampled ⟨1, fun _ => [3]⟩ chan).map
          (List.getD [id] j id), (3 : ℚ) = |v - List.getD [0] j 0|) ∧
      (∀ v ∈ (Waveform.get_sampled ⟨1, fun _ => [3]⟩ chan).map
          (List.getD [id] j id), |v - List.getD [0] j 0| ≤ 3) ∧
      (1 : ℚ) = List.getD [1] j 0 ∧ (1 : ℚ) < 3 := by
  have h : register "awg" ⟨[], [], []⟩ ⟨1, fun _ => [3]⟩ [some "a"] [none]
      [id] [1] [0] false
      = .error (.valueError 3 1, ⟨[], [], []⟩) := by
    rw [register]
    norm_num [build_amplitude, volt_to_amp, ratAbs, maxAbsDev, ratMax]
  exact (C3_range_violation "awg" ⟨[], [], []⟩ ⟨1, fun _ => [3]⟩ [some "a"]
    [none] [id] [1] [0] false).2 3 1 ⟨[], [], []⟩ h

end HDAWGWaveManager

namespace HDAWGWaveManager
/-- **C1 (code bug)**: the per-channel path normalizes every slot with slot
0's output range and offset, not the slot's own.  Concretely: channel slot 2
(0-based index 1) carries sample 1 with `output_range = [1, 2]` and
`output_offset = [0, 1]`; the claim's slot-1 normalization would give
`(1 - 1) / 2 = 0`, but the persisted matrix holds `(1 - 0) / 1 = 1` — the
slot-0 normalization — because `register_single_channels` forwards the full
range/offset tuples to a single-channel `register` call, which indexes them
at 0. -/
theorem C1_per_channel_normalization_bug :
    (register_single_channels "awg" ⟨[], [], []⟩ ⟨1, fun _ => [1]⟩
        [none, some "a"] [none, none] [id, id] [1, 2] [0, 1] false).map
      (fun r => (r.2.map (fun t => t.2.2.1), r.1.files.map (fun f => f.2.rows)))
      = .ok ([2], [[[1]]]) ∧
    ((1 : ℚ) - List.getD [0, 1] 1 0) / List.getD [1, 2] 1 0 = 0 ∧
    ((1 : ℚ) - List.getD [0, 1] 0 0) / List.getD [1, 2] 0 0 = 1 := by
  refine ⟨?_, by norm_num, by norm_num⟩
  rw [register_single_channels, register_single_channels_go]
  norm_num
  rw [register_single_channels_go]
  norm_num
  rw [register]
  norm_num [build_amplitude, volt_to_amp, ratAbs]
  rw [show matrix_rows [[1]] 1 = [[1]] by
    norm_num [matrix_rows, List.range, List.range.loop]]
  norm_num [register_wave_block, to_file, fileExists, fileSet]
  simp [register_single_channels_go, Except.map]

/-- **C5 counterexample**: the persisted wave matrix does not have one column
per active channel slot.  With channels `[some "a", none]` (one active slot)
the persisted row has length 2: `np.zeros((n_samples, len(channels)))`
allocates one column per slot, active or not. -/
theorem C5_counterexample :
    (register "awg" ⟨[], [], []⟩ ⟨1, fun _ => [1/2]⟩ [some "a", none]
        [none, none] [id, id] [1, 1] [0, 0] false).map
      (fun r => r.1.files.map (fun f => f.2.rows.map List.length))
      = .ok [[2]] ∧
    List.countP Option.isSome [some "a", none] = 1 ∧ (2 : Nat) ≠ 1 := by
  refine ⟨?_, by decide, by decide⟩
  rw [register]
  norm_num [build_amplitude, volt_to_amp, ratAbs]
  rw [show matrix_rows [[1/2], [0]] 1 = [[1/2, 0]] by
    norm_num [matrix_rows, List.range, List.range.loop]]
  norm_num [register_wave_block, to_file, fileExists, fileSet, Except.map]


/-- Successful normalization lands in `[-1, 1]` when the range is positive. -/
theorem volt_to_amp_ok_bounds (volt : List ℚ) (rng off : ℚ) (col : List ℚ)
    (h : volt_to_amp volt rng off = .ok col) (hr : 0 < rng) :
    ∀ x ∈ col, -1 ≤ x ∧ x ≤ 1 := by
  unfold volt_to_amp at h
  by_cases hc : volt.any (fun v => decide (rng < ratAbs (v - off)))
  · rw [if_pos hc] at h
    exact Except.noConfusion h
  · rw [if_neg hc] at h
    obtain rfl := Except.ok.inj h
    intro x hx
    obtain ⟨v, hv, rfl⟩ := List.mem_map.mp hx
    have hle : ratAbs (v - off) ≤ rng := by
      by_contra hlt
      exact hc (List.any_eq_true.mpr ⟨v, hv, by simpa using not_le.mp hlt⟩)
    rw [ratAbs_eq_abs] at hle
    have habs : |(v - off) / rng| ≤ 1 := by
      rw [abs_div, abs_of_pos hr]
      exact (div_le_one hr).mpr hle
    exact abs_le.mp habs

/-- Amplitude building yields one column per channel slot. -/
theorem build_amplitude_ok_length (w : Waveform) (vts : List (ℚ → ℚ))
    (rng off : List ℚ) :
    ∀ (channels : List (Option String)) (idx : Nat) (cols : List (List ℚ)),
    build_amplitude w vts rng off idx channels = .ok cols →
    cols.length = channels.length := by
  intro channels
  induction channels with
  | nil =>
    intro idx cols h
    obtain rfl := Except.ok.inj h
    rfl
  | cons c rest ih =>
    intro idx cols h
    cases c with
    | none =>
      unfold build_amplitude at h
      cases hb : build_amplitude w vts rng off (idx + 1) rest with
      | error e => rw [hb] at h; exact Except.noConfusion h
      | ok cols' =>
        rw [hb] at h
        dsimp only at h
        obtain rfl := Except.ok.inj h
        simpa using ih (idx + 1) cols' hb
    | some chan =>
      unfold build_amplitude at h
      dsimp only at h
      cases hv : volt_to_amp ((w.get_sampled chan).map (vts.getD idx id))
          (rng.getD idx 0) (off.getD idx 0) with
      | error e => rw [hv] at h; exact Except.noConfusion h
      | ok col =>
        rw [hv] at h
        dsimp only at h
        cases hb : build_amplitude w vts rng off (idx + 1) rest with
        | error e => rw [hb] at h; exact Except.noConfusion h
        | ok cols' =>
          rw [hb] at h
          dsimp only at h
          obtain rfl := Except.ok.inj h
          simpa using ih (idx + 1) cols' hb

/-- All amplitude-column entries lie in `[-1, 1]` for positive ranges. -/
theorem build_amplitude_ok_bounds (w : Waveform) (vts : List (ℚ → ℚ))
    (rng off : List ℚ) :
    ∀ (channels : List (Option String)) (idx : Nat) (cols : List (List ℚ)),
    build_amplitude w vts rng off idx channels = .ok cols →
    (∀ i, i < channels.length → 0 < rng.getD (idx + i) 0) →
    ∀ col ∈ cols, ∀ x ∈ col, -1 ≤ x ∧ x ≤ 1 := by
  intro channels
  induction channels with
  | nil =>
    intro idx cols h _
    obtain rfl := Except.ok.inj h
    simp
  | cons c rest ih =>
    intro idx cols h hpos
    have hpos' : ∀ i, i < rest.length → 0 < rng.getD (idx + 1 + i) 0 := by
      intro i hi
      have := hpos (i + 1) (by simpa using Nat.succ_lt_succ hi)
      have harith : idx + (i + 1) = idx + 1 + i := by omega
      rw [harith] at this
      exact this
    cases c with
    | none =>
      unfold build_amplitude at h
      cases hb : build_amplitude w vts rng off (idx + 1) rest with
      | error e => rw [hb] at h; exact Except.noConfusion h
      | ok cols' =>
        rw [hb] at h
        dsimp only at h
        obtain rfl := Except.ok.inj h
        intro col hcol
        rcases List.mem_cons.mp hcol with rfl | hcol'
        · intro x hx
          obtain rfl := List.eq_of_mem_replicate hx
          norm_num
        · exact ih (idx + 1) cols' hb hpos' col hcol'
    | some chan =>
      unfold build_amplitude at h
      dsimp only at h
      cases hv : volt_to_amp ((w.get_sampled chan).map (vts.getD idx id))
          (rng.getD idx 0) (off.getD idx 0) with
      | error e => rw [hv] at h; exact Except.noConfusion h
      | ok col0 =>
        rw [hv] at h
        dsimp only at h
        cases hb : build_amplitude w vts rng off (idx + 1) rest with
        | error e => rw [hb] at h; exact Except.noConfusion h
        | ok cols' =>
          rw [hb] at h
          dsimp only at h
          obtain rfl := Except.ok.inj h
          intro col hcol
          rcases List.mem_cons.mp hcol with rfl | hcol'
          · exact volt_to_amp_ok_bounds _ _ _ _ hv (by simpa using hpos 0 (by simp))
          · exact ih (idx + 1) cols' hb hpos' col hcol'

/-- An unassigned slot keeps its all-zero column. -/
theorem build_amplitude_ok_none (w : Waveform) (vts : List (ℚ → ℚ))
    (rng off : List ℚ) :
    ∀ (channels : List (Option String)) (idx : Nat) (cols : List (List ℚ)),
    build_amplitude w vts rng off idx channels = .ok cols →
    ∀ i : Nat, channels[i]? = some none →
    cols[i]? = some (List.replicate w.n_samples (0 : ℚ)) := by
  intro channels
  induction channels with
  | nil =>
    intro idx cols h i hi
    simp at hi
  | cons c rest ih =>
    intro idx cols h i hi
    cases c with
    | none =>
      unfold build_amplitude at h
      cases hb : build_amplitude w vts rng off (idx + 1) rest with
      | error e => rw [hb] at h; exact Except.noConfusion h
      | ok cols' =>
        rw [hb] at h
        dsimp only at h
        obtain rfl := Except.ok.inj h
        cases i with
        | zero => simp
        | succ k =>
          have hk : rest[k]? = some none := by simpa using hi
          simpa using ih (idx + 1) cols' hb k hk
    | some chan =>
      unfold build_amplitude at h
      dsimp only at h
      cases hv : volt_to_amp ((w.get_sampled chan).map (vts.getD idx id))
          (rng.getD idx 0) (off.getD idx 0) with
      | error e => rw [hv] at h; exact Except.noConfusion h
      | ok col0 =>
        rw [hv] at h
        dsimp only at h
        cases hb : build_amplitude w vts rng off (idx + 1) rest with
        | error e => rw [hb] at h; exact Except.noConfusion h
        | ok cols' =>
          rw [hb] at h
          dsimp only at h
          obtain rfl := Except.ok.inj h
          cases i with
          | zero => simp at hi
          | succ k =>
            have hk : rest[k]? = some none := by simpa using hi
            simpa using ih (idx + 1) cols' hb k hk


/-- The matrix has one row per sample. -/
theorem matrix_rows_length (cols : List (List ℚ)) (n : Nat) :
    (matrix_rows cols n).length = n := by
  simp [matrix_rows]

/-- Every row has one entry per column. -/
theorem matrix_rows_row_length (cols : List (List ℚ)) (n : Nat) :
    ∀ row ∈ matrix_rows cols n, row.length = cols.length := by
  intro row hrow
  obtain ⟨t, -, rfl⟩ := List.mem_map.mp hrow
  simp

/-- Row-major entries inherit the per-column bounds (missing entries are 0). -/
theorem matrix_rows_bounds (cols : List (List ℚ)) (n : Nat)
    (h : ∀ col ∈ cols, ∀ x ∈ col, -1 ≤ x ∧ x ≤ 1) :
    ∀ row ∈ matrix_rows cols n, ∀ x ∈ row, -1 ≤ x ∧ x ≤ 1 := by
  intro row hrow x hx
  obtain ⟨t, -, rfl⟩ := List.mem_map.mp hrow
  obtain ⟨col, hcol, rfl⟩ := List.mem_map.mp hx
  cases hget : col[t]? with
  | none => rw [List.getD_eq_getElem?_getD, hget]; norm_num
  | some v =>
    rw [List.getD_eq_getElem?_getD, hget]
    exact h col hcol v (List.getElem?_mem hget)

/-- Row-major entries inherit per-column 0/1-ness (missing entries are 0). -/
theorem matrix_rows_mem01 (cols : List (List ℚ)) (n : Nat)
    (h : ∀ col ∈ cols, ∀ x ∈ col, x = 0 ∨ x = 1) :
    ∀ row ∈ matrix_rows cols n, ∀ x ∈ row, x = 0 ∨ x = 1 := by
  intro row hrow x hx
  obtain ⟨t, -, rfl⟩ := List.mem_map.mp hrow
  obtain ⟨col, hcol, rfl⟩ := List.mem_map.mp hx
  cases hget : col[t]? with
  | none => rw [List.getD_eq_getElem?_getD, hget]; left; rfl
  | some v =>
    rw [List.getD_eq_getElem?_getD, hget]
    exact h col hcol v (List.getElem?_mem hget)

/-- A zero column stays zero in the row-major view. -/
theorem matrix_rows_none_col (cols : List (List ℚ)) (n : Nat) (i : Nat)
    (hcol : cols[i]? = some (List.replicate n (0 : ℚ))) :
    ∀ row ∈ matrix_rows cols n, row[i]? = some 0 := by
  intro row hrow
  obtain ⟨t, -, rfl⟩ := List.mem_map.mp hrow
  rw [List.getElem?_map, hcol]
  simp [List.getD_eq_getElem?_getD]

/-- Marker building yields one column per marker slot. -/
theorem build_marker_cols_length (w : Waveform) :
    ∀ markers : List (Option String),
    (build_marker_cols w markers).length = markers.length := by
  intro markers
  induction markers with
  | nil => rfl
  | cons m rest ih =>
    cases m <;> simp [build_marker_cols, ih]

/-- Marker-column entries are 0 or 1. -/
theorem build_marker_cols_01 (w : Waveform) :
    ∀ markers : List (Option String),
    ∀ col ∈ build_marker_cols w markers, ∀ x ∈ col, x = 0 ∨ x = 1 := by
  intro markers
  induction markers with
  | nil => simp [build_marker_cols]
  | cons m rest ih =>
    intro col hcol x hx
    cases m with
    | none =>
      rcases List.mem_cons.mp hcol with rfl | hcol'
      · exact Or.inl (List.eq_of_mem_replicate hx)
      · exact ih col hcol' x hx
    | some mk =>
      rcases List.mem_cons.mp hcol with rfl | hcol'
      · obtain ⟨v, -, rfl⟩ := List.mem_map.mp hx
        by_cases hv : v = 0
        · rw [if_pos hv]; left; rfl
        · rw [if_neg hv]; right; rfl
      · exact ih col hcol' x hx


/-- A successful `to_file` call performs exactly the modelled write. -/
theorem to_file_ok_eq (name : String) (data : List (List ℚ)) (fmt : String)
    (ov : Bool) (files files' : List (String × FileData))
    (h : to_file name data fmt ov files = .ok files') :
    files' = fileSet (full_file_path name) ⟨data, fmt⟩ files := by
  unfold to_file at h
  dsimp only at h
  split at h
  · exact Except.noConfusion h
  · exact (Except.ok.inj h).symm

/-- When the wave block's write fires (overwrite set, or artifact absent),
the persisted file under the returned name holds the amplitude matrix in
float format. -/
theorem register_wave_block_content (awgId : String) (st st1 : WaveManagerState)
    (a : List (List ℚ)) (nm : String) (ov : Bool)
    (h : register_wave_block awgId st a ov = .ok (st1, nm))
    (hguard : ov = true ∨ fileExists (full_file_path nm) st.files = false) :
    st1.files.lookup (full_file_path nm) = some ⟨a, "%f"⟩ := by
  unfold register_wave_block at h
  dsimp only at h
  cases hl : st.wave_by_data.lookup (calc_hash a) with
  | some nm' =>
    rw [hl] at h
    dsimp only at h
    by_cases hw : ov = true ∨ ¬ fileExists (full_file_path nm') st.files = true
    · rw [if_pos hw] at h
      cases ht : to_file nm' a "%f" ov st.files with
      | error e =>
        rw [ht] at h
        exact Except.noConfusion h
      | ok files =>
        rw [ht] at h
        dsimp only at h
        obtain ⟨h1, h2⟩ := Prod.mk.injEq .. ▸ Except.ok.inj h
        subst h2
        rw [← h1]
        dsimp only
        rw [to_file_ok_eq _ _ _ _ _ _ ht]
        exact fileSet_lookup_self _ _ _
    · rw [if_neg hw] at h
      obtain ⟨h1, h2⟩ := Prod.mk.injEq .. ▸ Except.ok.inj h
      subst h2
      push_neg at hw
      rcases hguard with hov | hex
      · exact absurd hov hw.1
      · exact absurd (by simpa using hw.2) (by simp [hex])
  | none =>
    rw [hl] at h
    dsimp only at h
    by_cases hw : ov = true ∨ ¬ fileExists
        (full_file_path (generate_wave_name awgId (calc_hash a))) st.files = true
    · rw [if_pos hw] at h
      cases ht : to_file (generate_wave_name awgId (calc_hash a)) a "%f" ov
          st.files with
      | error e =>
        rw [ht] at h
        exact Except.noConfusion h
      | ok files =>
        rw [ht] at h
        dsimp only at h
        obtain ⟨h1, h2⟩ := Prod.mk.injEq .. ▸ Except.ok.inj h
        subst h2
        rw [← h1]
        dsimp only
        rw [to_file_ok_eq _ _ _ _ _ _ ht]
        exact fileSet_lookup_self _ _ _
    · rw [if_neg hw] at h
      obtain ⟨h1, h2⟩ := Prod.mk.injEq .. ▸ Except.ok.inj h
      subst h2
      push_neg at hw
      rcases hguard with hov | hex
      · exact absurd hov hw.1
      · exact absurd (by simpa using hw.2) (by simp [hex])

/-- When the marker block's write fires, the persisted file under the
returned name holds the marker matrix in integer format. -/
theorem register_marker_block_content (awgId : String) (st st1 : WaveManagerState)
    (a : List (List ℚ)) (nm : String) (ov : Bool)
    (h : register_marker_block awgId st a ov = .ok (st1, nm))
    (hguard : ov = true ∨ fileExists (full_file_path nm) st.files = false) :
    st1.files.lookup (full_file_path nm) = some ⟨a, "%d"⟩ := by
  unfold register_marker_block at h
  dsimp only at h
  cases hl : st.marker_by_data.lookup (calc_hash a) with
  | some nm' =>
    rw [hl] at h
    dsimp only at h
    by_cases hw : ov = true ∨ ¬ fileExists (full_file_path nm') st.files = true
    · rw [if_pos hw] at h
      cases ht : to_file nm' a "%d" ov st.files with
      | error e =>
        rw [ht] at h
        exact Except.noConfusion h
      | ok files =>
        rw [ht] at h
        dsimp only at h
        obtain ⟨h1, h2⟩ := Prod.mk.injEq .. ▸ Except.ok.inj h
        subst h2
        rw [← h1]
        dsimp only
        rw [to_file_ok_eq _ _ _ _ _ _ ht]
        exact fileSet_lookup_self _ _ _
    · rw [if_neg hw] at h
      obtain ⟨h1, h2⟩ := Prod.mk.injEq .. ▸ Except.ok.inj h
      subst h2
      push_neg at hw
      rcases hguard with hov | hex
      · exact absurd hov hw.1
      · exact absurd (by simpa using hw.2) (by simp [hex])
  | none =>
    rw [hl] at h
    dsimp only at h
    by_cases hw : ov = true ∨ ¬ fileExists
        (full_file_path (generate_marker_name awgId (calc_hash a))) st.files = true
    · rw [if_pos hw] at h
      cases ht : to_file (generate_marker_name awgId (calc_hash a)) a "%d" ov
          st.files with
      | error e =>
        rw [ht] at h
        exact Except.noConfusion h
      | ok files =>
        rw [ht] at h
        dsimp only at h
        obtain ⟨h1, h2⟩ := Prod.mk.injEq .. ▸ Except.ok.inj h
        subst h2
        rw [← h1]
        dsimp only
        rw [to_file_ok_eq _ _ _ _ _ _ ht]
        exact fileSet_lookup_self _ _ _
    · rw [if_neg hw] at h
      obtain ⟨h1, h2⟩ := Prod.mk.injEq .. ▸ Except.ok.inj h
      subst h2
      push_neg at hw
      rcases hguard with hov | hex
      · exact absurd hov hw.1
      · exact absurd (by simpa using hw.2) (by simp [hex])

/-- On a fresh marker cache the returned name is minted by
`generate_marker_name` — the `_M_` marker namespace. -/
theorem register_marker_block_minted (awgId : String) (st st1 : WaveManagerState)
    (a : List (List ℚ)) (nm : String) (ov : Bool)
    (h : register_marker_block awgId st a ov = .ok (st1, nm))
    (hempty : st.marker_by_data = []) :
    ∃ hsh, nm = generate_marker_name awgId hsh := by
  unfold register_marker_block at h
  dsimp only at h
  rw [hempty] at h
  dsimp only [List.lookup] at h
  by_cases hw : ov = true ∨ ¬ fileExists
      (full_file_path (generate_marker_name awgId (calc_hash a))) st.files = true
  · rw [if_pos hw] at h
    cases ht : to_file (generate_marker_name awgId (calc_hash a)) a "%d" ov
        st.files with
    | error e =>
      rw [ht] at h
      exact Except.noConfusion h
    | ok files =>
      rw [ht] at h
      dsimp only at h
      exact ⟨calc_hash a, ((Prod.mk.injEq .. ▸ Except.ok.inj h).2).symm⟩
  · rw [if_neg hw] at h
    exact ⟨calc_hash a, ((Prod.mk.injEq .. ▸ Except.ok.inj h).2).symm⟩


/-- The wave block never touches the marker cache. -/
theorem register_wave_block_marker_eq (awgId : String)
    (st st1 : WaveManagerState) (a : List (List ℚ)) (nm : String) (ov : Bool)
    (h : register_wave_block awgId st a ov = .ok (st1, nm)) :
    st1.marker_by_data = st.marker_by_data := by
  unfold register_wave_block at h
  dsimp only at h
  split at h
  · cases ht : to_file
        (match st.wave_by_data.lookup (calc_hash a) with
          | some nm => (nm, st.wave_by_data)
          | none => (generate_wave_name awgId (calc_hash a),
              st.wave_by_data ++ [(calc_hash a, generate_wave_name awgId (calc_hash a))])).1
        a "%f" ov _ with
    | error e =>
      rw [ht] at h
      exact Except.noConfusion h
    | ok files =>
      rw [ht] at h
      dsimp only at h
      obtain ⟨h1, -⟩ := Prod.mk.injEq .. ▸ Except.ok.inj h
      rw [← h1]
  · obtain ⟨h1, -⟩ := Prod.mk.injEq .. ▸ Except.ok.inj h
    rw [← h1]

/-- `Nat.digitChar` never yields the letter `M` (its range is the hexadecimal
digits and `*`). -/
theorem digitChar_ne_M (n : Nat) : Nat.digitChar n ≠ 'M' := by
  by_cases h15 : n < 16
  · interval_cases n <;> decide
  · unfold Nat.digitChar
    repeat rw [if_neg (by omega)]
    decide

/-- The base-10 digit expansion only prepends digit characters: any `M` in the
output was already in the accumulator. -/
theorem mem_toDigitsCore_M (fuel : Nat) :
    ∀ (n : Nat) (ds : List Char),
      'M' ∈ Nat.toDigitsCore 10 fuel n ds → 'M' ∈ ds := by
  induction fuel with
  | zero =>
    intro n ds h
    simpa [Nat.toDigitsCore] using h
  | succ fuel ih =>
    intro n ds h
    rw [Nat.toDigitsCore] at h
    split at h
    · rcases List.mem_cons.mp h with h1 | h1
      · exact absurd h1 (fun he => digitChar_ne_M (n % 10) he.symm)
      · exact h1
    · rcases List.mem_cons.mp (ih _ _ h) with h1 | h1
      · exact absurd h1 (fun he => digitChar_ne_M (n % 10) he.symm)
      · exact h1

/-- `str(abs(hash))` is a decimal digit string: it never contains `M`. -/
theorem M_not_mem_natRepr (n : Nat) : 'M' ∉ (Nat.repr n).data := by
  intro h
  simpa using mem_toDigitsCore_M (n + 1) n [] h

/-- Strings with equal character data are equal. -/
theorem str_eq_of_data (s t : String) (h : s.data = t.data) : s = t := by
  cases s
  cases t
  exact congrArg String.mk h

/-- A marker artifact name (`awgId_M_<digits>`) never equals a wave artifact
name (`awgId_<digits>`): after the shared `awgId_` prefix, the former
continues with `M` and the latter with a decimal digit. -/
theorem marker_name_ne_wave_name (awgId : String) (h1 h2 : Int) :
    generate_marker_name awgId h1 ≠ generate_wave_name awgId h2 := by
  intro he
  unfold generate_marker_name generate_wave_name at he
  have hd := congrArg String.data he
  rw [String.data_append, String.data_append, String.data_append,
    String.data_append, List.append_assoc, List.append_assoc] at hd
  have hc := List.append_cancel_left hd
  have hm : "_M_".data = ['_', 'M', '_'] := rfl
  have hw : "_".data = ['_'] := rfl
  rw [hm, hw] at hc
  simp only [List.cons_append, List.nil_append] at hc
  injection hc with _ hc2
  have hmem : 'M' ∈ (toString h2.natAbs).data := by
    rw [← hc2]
    exact List.mem_cons_self _ _
  exact M_not_mem_natRepr h2.natAbs hmem

/-- Marker file paths and wave file paths never collide. -/
theorem marker_path_ne_wave_path (awgId : String) (h1 h2 : Int) :
    full_file_path (generate_marker_name awgId h1)
      ≠ full_file_path (generate_wave_name awgId h2) := by
  intro he
  unfold full_file_path at he
  have hd := congrArg String.data he
  rw [String.data_append, String.data_append] at hd
  exact marker_name_ne_wave_name awgId h1 h2
    (str_eq_of_data _ _ (List.append_cancel_right hd))

/-- Writing one path leaves every other path's content unchanged. -/
theorem fileSet_lookup_ne (p q : String) (d : FileData)
    (files : List (String × FileData)) (hpq : p ≠ q) :
    (fileSet q d files).lookup p = files.lookup p := by
  induction files with
  | nil =>
    have hk : (p == q) = false := by
      simp only [beq_eq_false_iff_ne, ne_eq]
      exact hpq
    simp [fileSet, List.lookup, hk]
  | cons f rest ih =>
    unfold fileSet
    by_cases hf : f.1 = q
    · rw [if_pos hf]
      rw [List.lookup, List.lookup]
      cases hk : (p == f.1) with
      | true => exact absurd ((eq_of_beq hk).trans hf) hpq
      | false => rfl
    · rw [if_neg hf]
      rw [List.lookup, List.lookup]
      cases hk : (p == f.1) with
      | true => rfl
      | false => exact ih

/-- A successful association-list lookup returns the value of a stored pair. -/
theorem lookup_mem_snd {β : Type _} (k : Int) (v : β) (l : List (Int × β))
    (h : l.lookup k = some v) : ∃ p ∈ l, p.2 = v := by
  induction l with
  | nil => simp [List.lookup] at h
  | cons a rest ih =>
    rw [List.lookup] at h
    cases hk : (k == a.1) with
    | true =>
      rw [hk] at h
      exact ⟨a, List.mem_cons_self _ _, Option.some.inj h⟩
    | false =>
      rw [hk] at h
      obtain ⟨p, hp, he⟩ := ih h
      exact ⟨p, List.mem_cons_of_mem _ hp, he⟩

/-- Structural effect of the wave block: the returned name is the cache hit or
the freshly minted one, the wave cache is unchanged or extended by exactly
that binding, the marker cache is untouched, and the files are unchanged or
updated at exactly the returned name's path with the amplitude matrix. -/
theorem register_wave_block_shape (awgId : String) (st st1 : WaveManagerState)
    (a : List (List ℚ)) (nm : String) (ov : Bool)
    (h : register_wave_block awgId st a ov = .ok (st1, nm)) :
    (st.wave_by_data.lookup (calc_hash a) = some nm ∨
      nm = generate_wave_name awgId (calc_hash a)) ∧
    (st1.wave_by_data = st.wave_by_data ∨
      st1.wave_by_data = st.wave_by_data ++ [(calc_hash a, nm)]) ∧
    st1.marker_by_data = st.marker_by_data ∧
    (st1.files = st.files ∨
      st1.files = fileSet (full_file_path nm) ⟨a, "%f"⟩ st.files) := by
  unfold register_wave_block at h
  dsimp only at h
  cases hl : st.wave_by_data.lookup (calc_hash a) with
  | some nm' =>
    rw [hl] at h
    dsimp only at h
    by_cases hw : ov = true ∨ ¬ fileExists (full_file_path nm') st.files = true
    · rw [if_pos hw] at h
      cases ht : to_file nm' a "%f" ov st.files with
      | error e =>
        rw [ht] at h
        exact Except.noConfusion h
      | ok files =>
        rw [ht] at h
        dsimp only at h
        obtain ⟨h1, h2⟩ := Prod.mk.injEq .. ▸ Except.ok.inj h
        subst h2
        refine ⟨Or.inl rfl, Or.inl ?_, ?_, Or.inr ?_⟩
        · rw [← h1]
        · rw [← h1]
        · rw [← h1]
          dsimp only
          exact to_file_ok_eq _ _ _ _ _ _ ht
    · rw [if_neg hw] at h
      obtain ⟨h1, h2⟩ := Prod.mk.injEq .. ▸ Except.ok.inj h
      subst h2
      exact ⟨Or.inl rfl, Or.inl (by rw [← h1]), by rw [← h1],
        Or.inl (by rw [← h1])⟩
  | none =>
    rw [hl] at h
    dsimp only at h
    by_cases hw : ov = true ∨ ¬ fileExists
        (full_file_path (generate_wave_name awgId (calc_hash a))) st.files = true
    · rw [if_pos hw] at h
      cases ht : to_file (generate_wave_name awgId (calc_hash a)) a "%f" ov
          st.files with
      | error e =>
        rw [ht] at h
        exact Except.noConfusion h
      | ok files =>
        rw [ht] at h
        dsimp only at h
        obtain ⟨h1, h2⟩ := Prod.mk.injEq .. ▸ Except.ok.inj h
        subst h2
        refine ⟨Or.inr rfl, Or.inr ?_, ?_, Or.inr ?_⟩
        · rw [← h1]
        · rw [← h1]
        · rw [← h1]
          dsimp only
          exact to_file_ok_eq _ _ _ _ _ _ ht
    · rw [if_neg hw] at h
      obtain ⟨h1, h2⟩ := Prod.mk.injEq .. ▸ Except.ok.inj h
      subst h2
      exact ⟨Or.inr rfl, Or.inr (by rw [← h1]), by rw [← h1],
        Or.inl (by rw [← h1])⟩

/-- Structural effect of the marker block, symmetric to
`register_wave_block_shape`. -/
theorem register_marker_block_shape (awgId : String) (st st1 : WaveManagerState)
    (a : List (List ℚ)) (nm : String) (ov : Bool)
    (h : register_marker_block awgId st a ov = .ok (st1, nm)) :
    (st.marker_by_data.lookup (calc_hash a) = some nm ∨
      nm = generate_marker_name awgId (calc_hash a)) ∧
    (st1.marker_by_data = st.marker_by_data ∨
      st1.marker_by_data = st.marker_by_data ++ [(calc_hash a, nm)]) ∧
    st1.wave_by_data = st.wave_by_data ∧
    (st1.files = st.files ∨
      st1.files = fileSet (full_file_path nm) ⟨a, "%d"⟩ st.files) := by
  unfold register_marker_block at h
  dsimp only at h
  cases hl : st.marker_by_data.lookup (calc_hash a) with
  | some nm' =>
    rw [hl] at h
    dsimp only at h
    by_cases hw : ov = true ∨ ¬ fileExists (full_file_path nm') st.files = true
    · rw [if_pos hw] at h
      cases ht : to_file nm' a "%d" ov st.files with
      | error e =>
        rw [ht] at h
        exact Except.noConfusion h
      | ok files =>
        rw [ht] at h
        dsimp only at h
        obtain ⟨h1, h2⟩ := Prod.mk.injEq .. ▸ Except.ok.inj h
        subst h2
        refine ⟨Or.inl rfl, Or.inl ?_, ?_, Or.inr ?_⟩
        · rw [← h1]
        · rw [← h1]
        · rw [← h1]
          dsimp only
          exact to_file_ok_eq _ _ _ _ _ _ ht
    · rw [if_neg hw] at h
      obtain ⟨h1, h2⟩ := Prod.mk.injEq .. ▸ Except.ok.inj h
      subst h2
      exact ⟨Or.inl rfl, Or.inl (by rw [← h1]), by rw [← h1],
        Or.inl (by rw [← h1])⟩
  | none =>
    rw [hl] at h
    dsimp only at h
    by_cases hw : ov = true ∨ ¬ fileExists
        (full_file_path (generate_marker_name awgId (calc_hash a))) st.files = true
    · rw [if_pos hw] at h
      cases ht : to_file (generate_marker_name awgId (calc_hash a)) a "%d" ov
          st.files with
      | error e =>
        rw [ht] at h
        exact Except.noConfusion h
      | ok files =>
        rw [ht] at h
        dsimp only at h
        obtain ⟨h1, h2⟩ := Prod.mk.injEq .. ▸ Except.ok.inj h
        subst h2
        refine ⟨Or.inr rfl, Or.inr ?_, ?_, Or.inr ?_⟩
        · rw [← h1]
        · rw [← h1]
        · rw [← h1]
          dsimp only
          exact to_file_ok_eq _ _ _ _ _ _ ht
    · rw [if_neg hw] at h
      obtain ⟨h1, h2⟩ := Prod.mk.injEq .. ▸ Except.ok.inj h
      subst h2
      exact ⟨Or.inr rfl, Or.inr (by rw [← h1]), by rw [← h1],
        Or.inl (by rw [← h1])⟩

/-- With well-formed caches, the wave block returns a name in the wave
namespace and preserves both cache invariants. -/
theorem register_wave_block_inv (awgId : String) (st st1 : WaveManagerState)
    (a : List (List ℚ)) (nm : String) (ov : Bool)
    (h : register_wave_block awgId st a ov = .ok (st1, nm))
    (hwc : wave_cache_ok awgId st) (hmc : marker_cache_ok awgId st) :
    (∃ hsh, nm = generate_wave_name awgId hsh) ∧
      wave_cache_ok awgId st1 ∧ marker_cache_ok awgId st1 := by
  obtain ⟨hname, hcache, hmarker, -⟩ :=
    register_wave_block_shape awgId st st1 a nm ov h
  have hns : ∃ hsh, nm = generate_wave_name awgId hsh := by
    rcases hname with hl | hg
    · obtain ⟨p, hp, he⟩ := lookup_mem_snd _ _ _ hl
      obtain ⟨hsh, hpe⟩ := hwc p hp
      exact ⟨hsh, he ▸ hpe⟩
    · exact ⟨calc_hash a, hg⟩
  refine ⟨hns, ?_, ?_⟩
  · intro p hp
    rcases hcache with he | he
    · exact hwc p (he ▸ hp)
    · rw [he] at hp
      rcases List.mem_append.mp hp with hp1 | hp1
      · exact hwc p hp1
      · obtain rfl := List.mem_singleton.mp hp1
        exact hns
  · intro p hp
    rw [hmarker] at hp
    exact hmc p hp

/-- With well-formed caches, the marker block returns a name in the `_M_`
namespace and preserves both cache invariants. -/
theorem register_marker_block_inv (awgId : String) (st st1 : WaveManagerState)
    (a : List (List ℚ)) (nm : String) (ov : Bool)
    (h : register_marker_block awgId st a ov = .ok (st1, nm))
    (hwc : wave_cache_ok awgId st) (hmc : marker_cache_ok awgId st) :
    (∃ hsh, nm = generate_marker_name awgId hsh) ∧
      wave_cache_ok awgId st1 ∧ marker_cache_ok awgId st1 := by
  obtain ⟨hname, hcache, hwave, -⟩ :=
    register_marker_block_shape awgId st st1 a nm ov h
  have hns : ∃ hsh, nm = generate_marker_name awgId hsh := by
    rcases hname with hl | hg
    · obtain ⟨p, hp, he⟩ := lookup_mem_snd _ _ _ hl
      obtain ⟨hsh, hpe⟩ := hmc p hp
      exact ⟨hsh, he ▸ hpe⟩
    · exact ⟨calc_hash a, hg⟩
  refine ⟨hns, ?_, ?_⟩
  · intro p hp
    rw [hwave] at hp
    exact hwc p hp
  · intro p hp
    rcases hcache with he | he
    · exact hmc p (he ▸ hp)
    · rw [he] at hp
      rcases List.mem_append.mp hp with hp1 | hp1
      · exact hmc p hp1
      · obtain rfl := List.mem_singleton.mp hp1
        exact hns

/-- The wave block changes no file other than the one at the returned name's
path. -/
theorem register_wave_block_files_frame (awgId : String)
    (st st1 : WaveManagerState) (a : List (List ℚ)) (nm : String) (ov : Bool)
    (h : register_wave_block awgId st a ov = .ok (st1, nm))
    (p : String) (hp : p ≠ full_file_path nm) :
    st1.files.lookup p = st.files.lookup p := by
  rcases (register_wave_block_shape awgId st st1 a nm ov h).2.2.2 with he | he
  · rw [he]
  · rw [he]
    exact fileSet_lookup_ne p _ _ _ hp

/-- The marker block changes no file other than the one at the returned
name's path. -/
theorem register_marker_block_files_frame (awgId : String)
    (st st1 : WaveManagerState) (a : List (List ℚ)) (nm : String) (ov : Bool)
    (h : register_marker_block awgId st a ov = .ok (st1, nm))
    (p : String) (hp : p ≠ full_file_path nm) :
    st1.files.lookup p = st.files.lookup p := by
  rcases (register_marker_block_shape awgId st st1 a nm ov h).2.2.2 with he | he
  · rw [he]
  · rw [he]
    exact fileSet_lookup_ne p _ _ _ hp

/-- **C5 amended**: for every successful `register` call, from any state with
positive output ranges and well-formed caches (every cached name was minted by
its generator — true of the initial empty state and, by the last two
conjuncts, of every reachable state): whenever the wave side's write fires
(overwrite set, or the artifact absent before the call), the persisted wave
matrix has one row per sample and one column per channel slot — slots with no
assigned channel contribute an all-zero column, not no column — with all
values in `[-1, 1]` and float format; likewise, whenever the marker side's
write fires, the persisted marker matrix has one row per sample and one column
per marker slot holding 0/1 values in integer format; the wave artifact name
lives in the `awgId_<digits>` namespace and the marker artifact name in the
separate `awgId_M_<digits>` namespace (the two never collide, since a decimal
digit string never starts with `M`); and both cache invariants are
preserved. -/
theorem C5_amended_persisted_shape (awgId : String) (st : WaveManagerState)
    (w : Waveform) (channels markers : List (Option String))
    (vts : List (ℚ → ℚ)) (rng off : List ℚ) (ov : Bool)
    (st' : WaveManagerState) (wn mn : Option String)
    (h : register awgId st w channels markers vts rng off ov
      = .ok (st', wn, mn))
    (hwc : wave_cache_ok awgId st) (hmc : marker_cache_ok awgId st)
    (hpos : ∀ i, i < channels.length → 0 < rng.getD i 0) :
    (∀ nm, wn = some nm →
      (ov = true ∨ fileExists (full_file_path nm) st.files = false) →
      ∃ fd, st'.files.lookup (full_file_path nm) = some fd ∧
        fd.fmt = "%f" ∧
        fd.rows.length = w.n_samples ∧
        (∀ row ∈ fd.rows, row.length = channels.length) ∧
        (∀ row ∈ fd.rows, ∀ x ∈ row, -1 ≤ x ∧ x ≤ 1) ∧
        (∀ row ∈ fd.rows, ∀ i : Nat, channels[i]? = some none →
          row[i]? = some 0)) ∧
    (∀ nm, mn = some nm →
      (ov = true ∨ fileExists (full_file_path nm) st.files = false) →
      ∃ fd, st'.files.lookup (full_file_path nm) = some fd ∧
        fd.fmt = "%d" ∧
        fd.rows.length = w.n_samples ∧
        (∀ row ∈ fd.rows, row.length = markers.length) ∧
        (∀ row ∈ fd.rows, ∀ x ∈ row, x = 0 ∨ x = 1)) ∧
    (∀ nm, wn = some nm → ∃ hsh, nm = generate_wave_name awgId hsh) ∧
    (∀ nm, mn = some nm → ∃ hsh, nm = generate_marker_name awgId hsh) ∧
    wave_cache_ok awgId st' ∧ marker_cache_ok awgId st' := by
  have hposz : ∀ i, i < channels.length → 0 < rng.getD (0 + i) 0 := by
    intro i hi
    simpa using hpos i hi
  unfold register at h
  dsimp only at h
  by_cases hch : channels.any Option.isSome
  · rw [if_pos hch] at h
    cases hb : build_amplitude w vts rng off 0 channels with
    | error e =>
      rw [hb] at h
      dsimp only at h
      exact Except.noConfusion h
    | ok cols =>
      rw [hb] at h
      dsimp only at h
      cases hwb : register_wave_block awgId st
          (matrix_rows cols w.n_samples) ov with
      | error p =>
        rw [hwb] at h
        dsimp only at h
        exact Except.noConfusion h
      | ok pw =>
        obtain ⟨stW, nmw⟩ := pw
        rw [hwb] at h
        dsimp only at h
        obtain ⟨hwns, hwcW, hmcW⟩ :=
          register_wave_block_inv awgId st stW _ nmw ov hwb hwc hmc
        by_cases hmk : markers.any Option.isSome
        · rw [if_pos hmk] at h
          cases hmb : register_marker_block awgId stW
              (matrix_rows (build_marker_cols w markers) w.n_samples) ov with
          | error p =>
            rw [hmb] at h
            dsimp only at h
            exact Except.noConfusion h
          | ok pm =>
            obtain ⟨stM, nmm⟩ := pm
            rw [hmb] at h
            dsimp only at h
            obtain ⟨hst, hwm⟩ := Prod.mk.injEq .. ▸ Except.ok.inj h
            obtain ⟨hw1, hm1⟩ := Prod.mk.injEq .. ▸ hwm
            obtain rfl := hst.symm
            subst hw1
            subst hm1
            obtain ⟨hmns, hwcM, hmcM⟩ :=
              register_marker_block_inv awgId stW st' _ nmm ov hmb hwcW hmcW
            have hpne : full_file_path nmm ≠ full_file_path nmw := by
              obtain ⟨h1, e1⟩ := hmns
              obtain ⟨h2, e2⟩ := hwns
              rw [e1, e2]
              exact marker_path_ne_wave_path awgId h1 h2
            refine ⟨?_, ?_, ?_, ?_, hwcM, hmcM⟩
            · intro nm hnm hguard
              obtain rfl := Option.some.inj hnm
              have hcontent := register_wave_block_content awgId st stW
                (matrix_rows cols w.n_samples) nmw ov hwb hguard
              have hframe := register_marker_block_files_frame awgId stW st'
                (matrix_rows (build_marker_cols w markers) w.n_samples) nmm ov
                hmb (full_file_path nmw) hpne.symm
              refine ⟨⟨matrix_rows cols w.n_samples, "%f"⟩,
                hframe.trans hcontent, rfl, matrix_rows_length _ _, ?_, ?_, ?_⟩
              · intro row hrow
                rw [matrix_rows_row_length _ _ row hrow]
                exact build_amplitude_ok_length w vts rng off channels 0 cols hb
              · exact matrix_rows_bounds _ _
                  (build_amplitude_ok_bounds w vts rng off channels 0 cols hb
                    hposz)
              · intro row hrow i hi
                exact matrix_rows_none_col cols w.n_samples i
                  (build_amplitude_ok_none w vts rng off channels 0 cols hb i hi)
                  row hrow
            · intro nm hnm hguard
              obtain rfl := Option.some.inj hnm
              have hguardW : ov = true ∨
                  fileExists (full_file_path nmm) stW.files = false := by
                rcases hguard with hov | hex
                · exact Or.inl hov
                · refine Or.inr ?_
                  have hframe := register_wave_block_files_frame awgId st stW
                    (matrix_rows cols w.n_samples) nmw ov hwb
                    (full_file_path nmm) hpne
                  unfold fileExists at hex ⊢
                  rw [hframe]
                  exact hex
              have hcontent := register_marker_block_content awgId stW st'
                (matrix_rows (build_marker_cols w markers) w.n_samples) nmm ov
                hmb hguardW
              refine ⟨⟨matrix_rows (build_marker_cols w markers) w.n_samples,
                "%d"⟩, hcontent, rfl, matrix_rows_length _ _, ?_, ?_⟩
              · intro row hrow
                rw [matrix_rows_row_length _ _ row hrow]
                exact build_marker_cols_length w markers
              · exact matrix_rows_mem01 _ _ (build_marker_cols_01 w markers)
            · intro nm hnm
              obtain rfl := Option.some.inj hnm
              exact hwns
            · intro nm hnm
              obtain rfl := Option.some.inj hnm
              exact hmns
        · rw [if_neg hmk] at h
          dsimp only at h
          obtain ⟨hst, hwm⟩ := Prod.mk.injEq .. ▸ Except.ok.inj h
          obtain ⟨hw1, hm1⟩ := Prod.mk.injEq .. ▸ hwm
          obtain rfl := hst.symm
          subst hw1
          subst hm1
          refine ⟨?_, ?_, ?_, ?_, hwcW, hmcW⟩
          · intro nm hnm hguard
            obtain rfl := Option.some.inj hnm
            refine ⟨⟨matrix_rows cols w.n_samples, "%f"⟩,
              register_wave_block_content awgId st st'
                (matrix_rows cols w.n_samples) nmw ov hwb hguard, rfl,
              matrix_rows_length _ _, ?_, ?_, ?_⟩
            · intro row hrow
              rw [matrix_rows_row_length _ _ row hrow]
              exact build_amplitude_ok_length w vts rng off channels 0 cols hb
            · exact matrix_rows_bounds _ _
                (build_amplitude_ok_bounds w vts rng off channels 0 cols hb
                  hposz)
            · intro row hrow i hi
              exact matrix_rows_none_col cols w.n_samples i
                (build_amplitude_ok_none w vts rng off channels 0 cols hb i hi)
                row hrow
          · intro nm hnm
            exact absurd hnm (by simp)
          · intro nm hnm
            obtain rfl := Option.some.inj hnm
            exact hwns
          · intro nm hnm
            exact absurd hnm (by simp)
  · rw [if_neg hch] at h
    dsimp only at h
    by_cases hmk : markers.any Option.isSome
    · rw [if_pos hmk] at h
      cases hmb : register_marker_block awgId st
          (matrix_rows (build_marker_cols w markers) w.n_samples) ov with
      | error p =>
        rw [hmb] at h
        dsimp only at h
        exact Except.noConfusion h
      | ok pm =>
        obtain ⟨stM, nmm⟩ := pm
        rw [hmb] at h
        dsimp only at h
        obtain ⟨hst, hwm⟩ := Prod.mk.injEq .. ▸ Except.ok.inj h
        obtain ⟨hw1, hm1⟩ := Prod.mk.injEq .. ▸ hwm
        obtain rfl := hst.symm
        subst hw1
        subst hm1
        obtain ⟨hmns, hwcM, hmcM⟩ :=
          register_marker_block_inv awgId st st' _ nmm ov hmb hwc hmc
        refine ⟨?_, ?_, ?_, ?_, hwcM, hmcM⟩
        · intro nm hnm
          exact absurd hnm (by simp)
        · intro nm hnm hguard
          obtain rfl := Option.some.inj hnm
          have hcontent := register_marker_block_content awgId st st'
            (matrix_rows (build_marker_cols w markers) w.n_samples) nmm ov
            hmb hguard
          refine ⟨⟨matrix_rows (build_marker_cols w markers) w.n_samples,
            "%d"⟩, hcontent, rfl, matrix_rows_length _ _, ?_, ?_⟩
          · intro row hrow
            rw [matrix_rows_row_length _ _ row hrow]
            exact build_marker_cols_length w markers
          · exact matrix_rows_mem01 _ _ (build_marker_cols_01 w markers)
        · intro nm hnm
          exact absurd hnm (by simp)
        · intro nm hnm
          obtain rfl := Option.some.inj hnm
          exact hmns
    · rw [if_neg hmk] at h
      dsimp only at h
      obtain ⟨hst, hwm⟩ := Prod.mk.injEq .. ▸ Except.ok.inj h
      obtain ⟨hw1, hm1⟩ := Prod.mk.injEq .. ▸ hwm
      obtain rfl := hst.symm
      subst hw1
      subst hm1
      refine ⟨?_, ?_, ?_, ?_, hwc, hmc⟩
      · intro nm hnm
        exact absurd hnm (by simp)
      · intro nm hnm
        exact absurd hnm (by simp)
      · intro nm hnm
        exact absurd hnm (by simp)
      · intro nm hnm
        exact absurd hnm (by simp)


/-- Witness for the amended C5: a combined wave-and-marker registration from
the empty manager state (whose caches are trivially well-formed) persists a
1×2 wave matrix in `[-1, 1]` with a zero column for the empty slot, a
marker-only registration persists a 1×1 0/1 matrix, and its artifact name is
in the `_M_` namespace, by `C5_amended_persisted_shape`. -/
theorem C5_amended_witness :
    (∃ fd, (List.lookup
        (full_file_path (generate_wave_name "awg" (calc_hash [[1/2, 0]])))
        (WaveManagerState.files
          ⟨[(calc_hash [[1/2, 0]], generate_wave_name "awg" (calc_hash [[1/2, 0]]))],
           [],
           [(full_file_path (generate_wave_name "awg" (calc_hash [[1/2, 0]])),
             ⟨[[1/2, 0]], "%f"⟩)]⟩)) = some fd ∧
      fd.fmt = "%f" ∧
      fd.rows.length = 1 ∧
      (∀ row ∈ fd.rows, row.length = 2) ∧
      (∀ row ∈ fd.rows, ∀ x ∈ row, -1 ≤ x ∧ x ≤ 1) ∧
      (∀ row ∈ fd.rows, ∀ i : Nat,
        ([some "a", none] : List (Option String))[i]? = some none →
        row[i]? = some 0)) ∧
    (∃ fd, (List.lookup
        (full_file_path (generate_marker_name "awg" (calc_hash [[1]])))
        (WaveManagerState.files
          ⟨[], [(calc_hash [[1]], generate_marker_name "awg" (calc_hash [[1]]))],
           [(full_file_path (generate_marker_name "awg" (calc_hash [[1]])),
             ⟨[[1]], "%d"⟩)]⟩)) = some fd ∧
      fd.fmt = "%d" ∧
      fd.rows.length = 1 ∧
      (∀ row ∈ fd.rows, row.length = 1) ∧
      (∀ row ∈ fd.rows, ∀ x ∈ row, x = 0 ∨ x = 1)) ∧
    (∃ hsh, generate_marker_name "awg" (calc_hash [[1]])
      = generate_marker_name "awg" hsh) := by
  have hwc0 : wave_cache_ok "awg" ⟨[], [], []⟩ := by
    intro p hp
    exact absurd hp (by simp)
  have hmc0 : marker_cache_ok "awg" ⟨[], [], []⟩ := by
    intro p hp
    exact absurd hp (by simp)
  have hpos2 : ∀ i, i < ([some "a", none] : List (Option String)).length →
      0 < List.getD [(1 : ℚ), 1] i 0 := by
    intro i hi
    match i with
    | 0 => norm_num
    | 1 => norm_num
    | (n+2) => simp at hi
  have hw : register "awg" ⟨[], [], []⟩ ⟨1, fun _ => [1/2]⟩ [some "a", none]
      [none, none] [id, id] [1, 1] [0, 0] false
      = .ok
        (⟨[(calc_hash [[1/2, 0]], generate_wave_name "awg" (calc_hash [[1/2, 0]]))],
          [],
          [(full_file_path (generate_wave_name "awg" (calc_hash [[1/2, 0]])),
            ⟨[[1/2, 0]], "%f"⟩)]⟩,
         some (generate_wave_name "awg" (calc_hash [[1/2, 0]])), none) := by
    rw [register]
    norm_num [build_amplitude, volt_to_amp, ratAbs]
    rw [show matrix_rows [[1/2], [0]] 1 = [[1/2, 0]] by
      norm_num [matrix_rows, List.range, List.range.loop]]
    norm_num [register_wave_block, to_file, fileExists, fileSet]
  have hm : register "awg" ⟨[], [], []⟩ ⟨1, fun _ => [1]⟩ [none] [some "m"]
      [id] [1] [0] true
      = .ok
        (⟨[], [(calc_hash [[1]], generate_marker_name "awg" (calc_hash [[1]]))],
          [(full_file_path (generate_marker_name "awg" (calc_hash [[1]])),
            ⟨[[1]], "%d"⟩)]⟩,
         none, some (generate_marker_name "awg" (calc_hash [[1]]))) := by
    rw [register]
    norm_num [build_marker_cols]
    rw [show matrix_rows [[1]] 1 = [[1]] by
      norm_num [matrix_rows, List.range, List.range.loop]]
    norm_num [register_marker_block, to_file, fileExists, fileSet]
  have hpos1 : ∀ i, i < ([none] : List (Option String)).length →
      0 < List.getD [(1 : ℚ)] i 0 := by
    intro i hi
    match i with
    | 0 => norm_num
    | (n+1) => simp at hi
  refine ⟨?_, ?_, ?_⟩
  · exact (C5_amended_persisted_shape "awg" ⟨[], [], []⟩ ⟨1, fun _ => [1/2]⟩
      [some "a", none] [none, none] [id, id] [1, 1] [0, 0] false _ _ _ hw
      hwc0 hmc0 hpos2).1
      (generate_wave_name "awg" (calc_hash [[1/2, 0]])) rfl
      (Or.inr (by decide))
  · exact (C5_amended_persisted_shape "awg" ⟨[], [], []⟩ ⟨1, fun _ => [1]⟩
      [none] [some "m"] [id] [1] [0] true _ _ _ hm hwc0 hmc0 hpos1).2.1
      (generate_marker_name "awg" (calc_hash [[1]])) rfl (Or.inl rfl)
  · exact (C5_amended_persisted_shape "awg" ⟨[], [], []⟩ ⟨1, fun _ => [1]⟩
      [none] [some "m"] [id] [1] [0] true _ _ _ hm hwc0 hmc0 hpos1).2.2.2.1
      (generate_marker_name "awg" (calc_hash [[1]])) rfl

end HDAWGWaveManager
